import Mathlib

/-!
# Verification of the TOON gateway

This development embeds the `toon-gateway` repository in Lean 4:

* the TOON codec (`encodeToToon` / `decodeFromToon`).  The repository's
  `src/toon-codec.js` merely delegates to the external `@toon-format/toon`
  npm package, whose source is not part of the repository, so the codec
  semantics below are modelled from the specification (§3, §4, §6–§8 of
  the design document): the tagged `Value` model, delimiter-aware quoting
  and escaping, tabular-array detection, indentation-based structural
  parsing and strict validation, all at the default options
  (`delimiter = ','`, `indent = 2`, `keyFolding = off`, `strict = true`,
  `expandPaths = off`, `indentSize = 2`).
* the gateway plumbing of `src/app.js` and `src/cache.js`
  (`generateKey`, `cacheMiddleware`, the `onProxyRes` response
  interceptor and a trace model of the Redis cache), translated from the
  JavaScript source.

All recursive functions are written with explicit structural fuel so that
every definition is executable and kernel-reducible.
-/

/-! ## Value model

Modelled from the spec: `Value` is the tagged variant
Null | Boolean | Number | String | Array | Object (§3).  Numbers are
exact decimals `m · 10⁻ᵉ` (mantissa/scale), matching the spec's
"decimal, round-trip-exact text representation"; object key order is
significant and arrays are ordered.  Being an inductive type, every
`Value` is automatically acyclic (trees only, §3). -/

inductive Value where
  | null : Value
  | bool (b : Bool) : Value
  | num (m : Int) (e : Nat) : Value
  | str (s : String) : Value
  | arr (xs : List Value) : Value
  | obj (kvs : List (String × Value)) : Value
deriving Repr

/-- The decode error taxonomy, modelled from the spec (§7). -/
inductive DErr where
  | malformed : DErr
  | indentation : DErr
  | lengthMismatch : DErr
  | unexpectedEnd : DErr
  | unknownLiteral : DErr
  | foldingConflict : DErr
deriving Repr, DecidableEq

/-! ## Characters and decimal digit rendering -/

/-- The decimal digit `d` (`d < 10`) as a character. -/
def digitChar (d : Nat) : Char := Char.ofNat (48 + d)

def isDigitC (c : Char) : Bool := 48 ≤ c.toNat && c.toNat ≤ 57

/-- Fuel-driven most-significant-first decimal rendering of `n ≠ 0`
(empty for `n = 0`). -/
def natCharsAux : Nat → Nat → List Char
  | 0, _ => []
  | f + 1, n => if n = 0 then [] else natCharsAux f (n / 10) ++ [digitChar (n % 10)]

/-- Decimal rendering of a natural number. -/
def natChars (n : Nat) : List Char :=
  if n = 0 then ['0'] else natCharsAux (n + 1) n

/-- Decimal parsing: fold digits most-significant first. -/
def parseNatAux : Nat → List Char → Nat
  | a, [] => a
  | a, c :: cs => parseNatAux (a * 10 + (c.toNat - 48)) cs

def parseNat (cs : List Char) : Nat := parseNatAux 0 cs

theorem digitChar_toNat {d : Nat} (h : d < 10) : (digitChar d).toNat = 48 + d := by
  interval_cases d <;> rfl

theorem digitChar_isDigit {d : Nat} (h : d < 10) : isDigitC (digitChar d) = true := by
  interval_cases d <;> rfl

theorem natCharsAux_all_digits : ∀ f n, ∀ c ∈ natCharsAux f n, isDigitC c = true := by
  intro f
  induction f with
  | zero => intro n c hc; simp [natCharsAux] at hc
  | succ f ih =>
      intro n c hc
      by_cases h : n = 0
      · simp [natCharsAux, h] at hc
      · simp only [natCharsAux, h, if_false, List.mem_append, List.mem_singleton] at hc
        rcases hc with hc | hc
        · exact ih _ c hc
        · subst hc; exact digitChar_isDigit (Nat.mod_lt _ (by norm_num))

theorem natChars_all_digits : ∀ c ∈ natChars n, isDigitC c = true := by
  intro c hc
  by_cases h : n = 0
  · simp [natChars, h] at hc; subst hc; rfl
  · simp only [natChars, h, if_false] at hc
    exact natCharsAux_all_digits _ _ c hc

theorem parseNatAux_append (a : Nat) (xs ys : List Char) :
    parseNatAux a (xs ++ ys) = parseNatAux (parseNatAux a xs) ys := by
  induction xs generalizing a with
  | nil => rfl
  | cons c cs ih => exact ih _

theorem natCharsAux_succ_ne {f n : Nat} (h0 : n ≠ 0) :
    natCharsAux (f + 1) n = natCharsAux f (n / 10) ++ [digitChar (n % 10)] := by
  show (if n = 0 then [] else natCharsAux f (n / 10) ++ [digitChar (n % 10)]) = _
  rw [if_neg h0]

theorem parseNatAux_natCharsAux : ∀ f n a, n ≤ f →
    parseNatAux a (natCharsAux f n) = a * 10 ^ (natCharsAux f n).length + n := by
  intro f
  induction f with
  | zero =>
      intro n a h
      have h0 : n = 0 := by omega
      subst h0
      show a = a * 10 ^ 0 + 0
      simp
  | succ f ih =>
      intro n a h
      by_cases h0 : n = 0
      · subst h0
        show a = a * 10 ^ 0 + 0
        simp
      · have hrec : n / 10 ≤ f := by
          have := Nat.div_lt_self (Nat.pos_of_ne_zero h0) (by norm_num : 1 < 10)
          omega
        rw [natCharsAux_succ_ne h0, parseNatAux_append, ih _ a hrec]
        have hd : (digitChar (n % 10)).toNat = 48 + n % 10 :=
          digitChar_toNat (Nat.mod_lt n (by norm_num : 0 < 10))
        show (a * 10 ^ (natCharsAux f (n / 10)).length + n / 10) * 10
            + ((digitChar (n % 10)).toNat - 48)
            = a * 10 ^ (natCharsAux f (n / 10) ++ [digitChar (n % 10)]).length + n
        rw [hd, List.length_append, List.length_singleton, pow_succ]
        have hmd := Nat.div_add_mod n 10
        ring_nf
        omega

theorem parseNat_natChars (n : Nat) : parseNat (natChars n) = n := by
  by_cases h : n = 0
  · subst h; rfl
  · simp only [natChars, h, if_false, parseNat]
    rw [parseNatAux_natCharsAux (n + 1) n 0 (by omega)]
    simp

theorem natChars_ne_nil (n : Nat) : natChars n ≠ [] := by
  by_cases h : n = 0
  · simp [natChars, h]
  · have hn : 1 ≤ n := Nat.pos_of_ne_zero h
    simp only [natChars, h, if_false]
    cases hf : natCharsAux (n + 1) n with
    | nil =>
        exfalso
        cases n with
        | zero => exact h rfl
        | succ m => simp [natCharsAux] at hf
    | cons a l => simp

theorem natCharsAux_len_le : ∀ f n e, n ≤ f → n < 10 ^ e →
    (natCharsAux f n).length ≤ e := by
  intro f
  induction f with
  | zero => intro n e h _; interval_cases n; simp [natCharsAux]
  | succ f ih =>
      intro n e hf he
      by_cases h0 : n = 0
      · simp [natCharsAux, h0]
      · have he1 : 1 ≤ e := by
          by_contra hc
          have : e = 0 := by omega
          subst this; simp at he; omega
        have hrec : n / 10 ≤ f := by
          have := Nat.div_lt_self (Nat.pos_of_ne_zero h0) (by norm_num : 1 < 10)
          omega
        have hlt : n / 10 < 10 ^ (e - 1) := by
          have h10 : 10 ^ e = 10 ^ (e - 1) * 10 := by
            conv_lhs => rw [show e = (e - 1) + 1 by omega]
            rw [pow_succ]
          rw [Nat.div_lt_iff_lt_mul (by norm_num : 0 < 10)]
          omega
        have := ih (n / 10) (e - 1) hrec hlt
        simp only [natCharsAux, h0, if_false, List.length_append, List.length_singleton]
        omega

/-! ## Decimal number rendering (exact decimals, spec §4.1) -/

/-- Decimal rendering of an integer. -/
def intChars (m : Int) : List Char :=
  if m < 0 then '-' :: natChars m.natAbs else natChars m.natAbs

/-- The fractional digits of `k < 10^e`, zero-padded on the left to
exactly `e` digits. -/
def padDigits (e k : Nat) : List Char :=
  List.replicate (e - (natChars k).length) '0' ++ natChars k

/-- Modelled from the spec: canonical decimal text of the number
`m · 10⁻ᵉ` — plain integer text when `e = 0`, otherwise integer part,
`'.'`, then exactly `e` fractional digits (§4.1). -/
def numChars (m : Int) (e : Nat) : List Char :=
  if e = 0 then intChars m
  else
    (if m < 0 then ['-'] else []) ++
      natChars (m.natAbs / 10 ^ e) ++ '.' :: padDigits e (m.natAbs % 10 ^ e)

/-- Take the longest prefix of decimal digits. -/
def takeDigits : List Char → List Char × List Char
  | [] => ([], [])
  | c :: cs =>
      if isDigitC c then
        let p := takeDigits cs
        (c :: p.1, p.2)
      else ([], c :: cs)

/-- The unsigned part of the number grammar: integer digits, optionally
`'.'` and fractional digits; the whole input must match.  Returns the
scaled magnitude and the scale. -/
def parseNumMag (cs : List Char) : Option (Nat × Nat) :=
  let p := takeDigits cs
  if p.1 = [] then none
  else
    match p.2 with
    | [] => some (parseNat p.1, 0)
    | c :: fs =>
        if c = '.' then
          let q := takeDigits fs
          if q.1 = [] then none
          else if q.2 = [] then
            some (parseNat p.1 * 10 ^ q.1.length + parseNat q.1, q.1.length)
          else none
        else none

/-- Modelled from the spec: the unquoted number grammar — optional minus
sign, integer digits, optional `'.'` and fractional digits; the whole
token must match (§4.1).  Returns mantissa and scale. -/
def parseNumTok (cs : List Char) : Option (Int × Nat) :=
  match cs with
  | [] => none
  | c :: r =>
      if c = '-' then (parseNumMag r).map (fun p => (-(p.1 : Int), p.2))
      else (parseNumMag cs).map (fun p => ((p.1 : Int), p.2))

/-! ## Quoting and escaping (spec §4.1) -/

/-- Escape backslash, double quote and newline inside a quoted string. -/
def escChars : List Char → List Char
  | [] => []
  | c :: cs =>
      if c = '\\' ∨ c = '"' then '\\' :: c :: escChars cs
      else if c = '\n' then '\\' :: 'n' :: escChars cs
      else c :: escChars cs

/-- A quoted token: `"` + escaped content + `"`. -/
def quoteTok (cs : List Char) : List Char := '"' :: escChars cs ++ ['"']

/-- Read a quoted token body up to the closing quote, undoing escapes;
returns the unescaped content and the characters after the closing
quote. -/
def pQuotedAux : List Char → Option (List Char × List Char)
  | [] => none
  | c :: cs =>
      if c = '\\' then
        match cs with
        | [] => none
        | d :: ds =>
            match pQuotedAux ds with
            | none => none
            | some (s, r) => some ((if d = 'n' then '\n' else d) :: s, r)
      else if c = '"' then some ([], cs)
      else
        match pQuotedAux cs with
        | none => none
        | some (s, r) => some (c :: s, r)

/-- Parse a token that starts with a double quote. -/
def parseQuoted : List Char → Option (List Char × List Char)
  | [] => none
  | c :: cs => if c = '"' then pQuotedAux cs else none

/-- A character that forces quoting wherever it occurs in a string value:
the active delimiter, colon, quote, backslash and line breaks. -/
def badChar (c : Char) : Bool :=
  c = ',' || c = ':' || c = '"' || c = '\\' || c = '\n' || c = '\r'

/-- A leading character that forces quoting of a string value
(whitespace, quote, or a character that could be mistaken for an array
header, an empty-object marker or a list-item marker). -/
def badHead (c : Char) : Bool :=
  c = ' ' || c = '\t' || c = '"' || c = '[' || c = '{' || c = '-'

/-- Trailing whitespace forces quoting. -/
def badTail (c : Char) : Bool := c = ' ' || c = '\t'

/-- Reserved literal tokens. -/
def isLitTok (cs : List Char) : Bool :=
  cs = "null".data || cs = "true".data || cs = "false".data

/-- Modelled from the spec: a string value must be quoted when it is
empty, has leading/trailing whitespace, contains the delimiter, a colon,
a quote, a backslash or a line break, is lexically a reserved literal or
valid number syntax, or starts with a character that the grammar gives
structural meaning (§4.1). -/
def needsQuote (cs : List Char) : Bool :=
  match cs with
  | [] => true
  | c :: _ =>
      badHead c || badTail (cs.getLastD 'a') || cs.any badChar ||
        isLitTok cs || (parseNumTok cs).isSome

/-- A key must be quoted when empty, when it has leading/trailing
whitespace or a leading quote, when it contains a character that is
structural in key position (colon, `[`, comma, `}`, backslash, line
breaks) or when it is the empty-object marker. -/
def keyNeedsQuote (cs : List Char) : Bool :=
  match cs with
  | [] => true
  | c :: _ =>
      (c = ' ' || c = '\t' || c = '"') || badTail (cs.getLastD 'a') ||
        cs.any (fun x => x = ':' || x = '[' || x = ',' || x = '}' ||
          x = '\\' || x = '\n' || x = '\r') ||
        cs = "{}".data

/-- Encoded form of a string value. -/
def strChars (cs : List Char) : List Char :=
  if needsQuote cs then quoteTok cs else cs

/-- Encoded form of an object key (also used for tabular header
fields). -/
def keyChars (k : String) : List Char :=
  if keyNeedsQuote k.data then quoteTok k.data else k.data

/-- Scalar test (spec §4.2: Null/Boolean/Number/String). -/
def isScalar : Value → Bool
  | .null | .bool _ | .num _ _ | .str _ => true
  | .arr _ | .obj _ => false

/-- Modelled from the spec: canonical rendering of a scalar value
(§4.1).  Containers are never passed to this function. -/
def encScalar : Value → List Char
  | .null => "null".data
  | .bool true => "true".data
  | .bool false => "false".data
  | .num m e => numChars m e
  | .str s => strChars s.data
  | .arr _ => []
  | .obj _ => []

/-- Classification of an unquoted token: reserved literal, number, else
generic string (spec §4.1); the empty token is malformed. -/
def classifyTok (cs : List Char) : Except DErr Value :=
  if cs = [] then .error .malformed
  else if cs = "null".data then .ok .null
  else if cs = "true".data then .ok (.bool true)
  else if cs = "false".data then .ok (.bool false)
  else
    match parseNumTok cs with
    | some (m, e) => .ok (.num m e)
    | none => .ok (.str (String.mk cs))

/-- Decode a whole scalar token (quoted or unquoted). -/
def scalarOfToken (cs : List Char) : Except DErr Value :=
  match cs with
  | [] => .error .malformed
  | c :: _ =>
      if c = '"' then
        match parseQuoted cs with
        | some (s, r) =>
            if r = [] then .ok (.str (String.mk s)) else .error .malformed
        | none => .error .malformed
      else classifyTok cs

/-! ## Token-level round-trip lemmas -/


theorem escChars_cons_esc {c : Char} (h : c = '\\' ∨ c = '"') (cs : List Char) :
    escChars (c :: cs) = '\\' :: c :: escChars cs := by
  show (if c = '\\' ∨ c = '"' then '\\' :: c :: escChars cs
    else if c = '\n' then '\\' :: 'n' :: escChars cs else c :: escChars cs) = _
  rw [if_pos h]

theorem escChars_cons_nl (cs : List Char) :
    escChars ('\n' :: cs) = '\\' :: 'n' :: escChars cs := by
  show (if '\n' = '\\' ∨ '\n' = '"' then '\\' :: '\n' :: escChars cs
    else if '\n' = '\n' then '\\' :: 'n' :: escChars cs
    else '\n' :: escChars cs) = _
  rw [if_neg (by simp), if_pos rfl]

theorem escChars_cons_plain {c : Char} (h1 : ¬(c = '\\' ∨ c = '"'))
    (h2 : c ≠ '\n') (cs : List Char) :
    escChars (c :: cs) = c :: escChars cs := by
  show (if c = '\\' ∨ c = '"' then '\\' :: c :: escChars cs
    else if c = '\n' then '\\' :: 'n' :: escChars cs else c :: escChars cs) = _
  rw [if_neg h1, if_neg h2]

theorem pQuotedAux_cons_esc (c : Char) (cs : List Char) :
    pQuotedAux ('\\' :: c :: cs)
      = match pQuotedAux cs with
        | none => none
        | some (s, r) => some ((if c = 'n' then '\n' else c) :: s, r) := by
  simp only [pQuotedAux]
  rw [if_pos trivial]

theorem pQuotedAux_cons_close (cs : List Char) :
    pQuotedAux ('"' :: cs) = some ([], cs) := by
  cases cs <;> simp [pQuotedAux]

theorem pQuotedAux_cons_plain {c : Char} (h1 : c ≠ '\\') (h2 : c ≠ '"')
    (cs : List Char) :
    pQuotedAux (c :: cs)
      = match pQuotedAux cs with
        | none => none
        | some (s, r) => some (c :: s, r) := by
  cases cs <;> (simp only [pQuotedAux]; rw [if_neg h1, if_neg h2])

theorem pQuotedAux_esc : ∀ (s rest : List Char),
    pQuotedAux (escChars s ++ '"' :: rest) = some (s, rest) := by
  intro s
  induction s with
  | nil =>
      intro rest
      show pQuotedAux ('"' :: rest) = some ([], rest)
      exact pQuotedAux_cons_close rest
  | cons c cs ih =>
      intro rest
      by_cases h1 : c = '\\' ∨ c = '"'
      · rw [escChars_cons_esc h1]
        show pQuotedAux ('\\' :: c :: (escChars cs ++ '"' :: rest)) = _
        rw [pQuotedAux_cons_esc, ih rest]
        have hcn : (if c = 'n' then '\n' else c) = c := by
          rcases h1 with h | h <;> subst h <;> rfl
        rw [hcn]
      · by_cases h2 : c = '\n'
        · subst h2
          rw [escChars_cons_nl]
          show pQuotedAux ('\\' :: 'n' :: (escChars cs ++ '"' :: rest)) = _
          rw [pQuotedAux_cons_esc, ih rest]
          rw [if_pos rfl]
        · rw [escChars_cons_plain h1 h2]
          have hc1 : c ≠ '\\' := fun hx => h1 (Or.inl hx)
          have hc2 : c ≠ '"' := fun hx => h1 (Or.inr hx)
          show pQuotedAux (c :: (escChars cs ++ '"' :: rest)) = _
          rw [pQuotedAux_cons_plain hc1 hc2, ih rest]

theorem parseQuoted_quoteTok (s rest : List Char) :
    parseQuoted (quoteTok s ++ rest) = some (s, rest) := by
  have h : quoteTok s ++ rest = '"' :: (escChars s ++ '"' :: rest) := by
    show ('"' :: (escChars s ++ ['"'])) ++ rest = _
    simp
  rw [h]
  show (if ('"' : Char) = '"' then pQuotedAux (escChars s ++ '"' :: rest) else none) = _
  rw [if_pos rfl, pQuotedAux_esc]

theorem ne_of_digit {c x : Char} (h : isDigitC c = true) (hx : isDigitC x = false) :
    c ≠ x := by
  intro he
  subst he
  rw [h] at hx
  exact absurd hx (by simp)

theorem head_digit_of_natChars {n : Nat} :
    ∃ c rest, natChars n = c :: rest ∧ isDigitC c = true := by
  cases h : natChars n with
  | nil => exact absurd h (natChars_ne_nil n)
  | cons c rest =>
      refine ⟨c, rest, rfl, ?_⟩
      have : c ∈ natChars n := by rw [h]; exact List.mem_cons_self c rest
      exact natChars_all_digits c this

theorem takeDigits_append (ds rest : List Char)
    (hds : ∀ c ∈ ds, isDigitC c = true)
    (hrest : ∀ c, rest.head? = some c → isDigitC c = false) :
    takeDigits (ds ++ rest) = (ds, rest) := by
  induction ds with
  | nil =>
      cases rest with
      | nil => rfl
      | cons r rs =>
          have : isDigitC r = false := hrest r rfl
          simp only [List.nil_append, takeDigits, this]
          rw [if_neg (by simp [this])]
  | cons d ds ih =>
      have hd : isDigitC d = true := hds d (List.mem_cons_self d ds)
      have hih := ih (fun c hc => hds c (List.mem_cons_of_mem d hc))
      simp only [List.cons_append, takeDigits]
      rw [if_pos hd]
      have hap : ds.append rest = ds ++ rest := rfl
      rw [hap, hih]

theorem parseNatAux_zeros : ∀ (k : Nat) (cs : List Char),
    parseNatAux 0 (List.replicate k '0' ++ cs) = parseNatAux 0 cs := by
  intro k
  induction k with
  | zero => intro cs; rfl
  | succ k ih =>
      intro cs
      show parseNatAux (0 * 10 + ('0'.toNat - 48)) (List.replicate k '0' ++ cs)
        = parseNatAux 0 cs
      have : (0 * 10 + ('0'.toNat - 48)) = 0 := rfl
      rw [this, ih]

theorem padDigits_all_digits (e k : Nat) : ∀ c ∈ padDigits e k, isDigitC c = true := by
  intro c hc
  simp only [padDigits, List.mem_append] at hc
  rcases hc with hc | hc
  · have : c = '0' := List.eq_of_mem_replicate hc
    subst this; rfl
  · exact natChars_all_digits c hc

theorem natChars_len_le {k e : Nat} (he : 1 ≤ e) (hk : k < 10 ^ e) :
    (natChars k).length ≤ e := by
  by_cases h0 : k = 0
  · subst h0; simpa [natChars] using he
  · simp only [natChars, h0, if_false]
    exact natCharsAux_len_le (k + 1) k e (by omega) hk

theorem padDigits_length {e k : Nat} (he : 1 ≤ e) (hk : k < 10 ^ e) :
    (padDigits e k).length = e := by
  have hle := natChars_len_le he hk
  simp only [padDigits, List.length_append, List.length_replicate]
  omega

theorem padDigits_ne_nil {e k : Nat} (he : 1 ≤ e) (hk : k < 10 ^ e) :
    padDigits e k ≠ [] := by
  intro h
  have := padDigits_length he hk
  rw [h] at this
  simp at this
  omega

theorem parseNat_padDigits (e k : Nat) : parseNat (padDigits e k) = k := by
  show parseNatAux 0 (List.replicate (e - (natChars k).length) '0' ++ natChars k) = k
  rw [parseNatAux_zeros]
  exact parseNat_natChars k

theorem numChars_mem {m : Int} {e : Nat} :
    ∀ c ∈ numChars m e, isDigitC c = true ∨ c = '-' ∨ c = '.' := by
  intro c hc
  by_cases he : e = 0
  · subst he
    simp only [numChars, if_pos rfl, intChars] at hc
    by_cases hm : m < 0
    · rw [if_pos hm] at hc
      rcases List.mem_cons.mp hc with h | h
      · exact Or.inr (Or.inl h)
      · exact Or.inl (natChars_all_digits c h)
    · rw [if_neg hm] at hc
      exact Or.inl (natChars_all_digits c hc)
  · simp only [numChars, if_neg he, List.mem_append, List.mem_cons] at hc
    rcases hc with (hc | hc) | hc | hc
    · by_cases hm : m < 0
      · rw [if_pos hm] at hc
        simp at hc
        exact Or.inr (Or.inl hc)
      · rw [if_neg hm] at hc
        simp at hc
    · exact Or.inl (natChars_all_digits c hc)
    · exact Or.inr (Or.inr hc)
    · exact Or.inl (padDigits_all_digits _ _ c hc)

theorem parseNumMag_int (n : Nat) : parseNumMag (natChars n) = some (n, 0) := by
  have htd : takeDigits (natChars n) = (natChars n, []) := by
    have := takeDigits_append (natChars n) [] (fun c hc => natChars_all_digits c hc)
      (fun c hc => by simp at hc)
    simpa using this
  simp only [parseNumMag, htd]
  rw [if_neg (natChars_ne_nil n)]
  simp [parseNat_natChars]

theorem parseNumMag_dec {q r e : Nat} (he : 1 ≤ e) (hr : r < 10 ^ e) :
    parseNumMag (natChars q ++ '.' :: padDigits e r) = some (q * 10 ^ e + r, e) := by
  have htd : takeDigits (natChars q ++ '.' :: padDigits e r)
      = (natChars q, '.' :: padDigits e r) :=
    takeDigits_append _ _ (fun c hc => natChars_all_digits c hc)
      (fun c hc => by
        simp only [List.head?] at hc
        injection hc with hc
        subst hc
        rfl)
  have htd2 : takeDigits (padDigits e r) = (padDigits e r, []) := by
    have := takeDigits_append (padDigits e r) [] (padDigits_all_digits e r)
      (fun c hc => by simp at hc)
    simpa using this
  simp only [parseNumMag, htd]
  rw [if_neg (natChars_ne_nil q)]
  simp only [htd2]
  rw [if_pos trivial, if_neg (padDigits_ne_nil he hr), if_pos trivial]
  rw [padDigits_length he hr]
  show some (parseNat (natChars q) * 10 ^ e + parseNat (padDigits e r), e) = _
  rw [parseNat_natChars, parseNat_padDigits]

theorem parseNumTok_numChars (m : Int) (e : Nat) :
    parseNumTok (numChars m e) = some (m, e) := by
  by_cases he : e = 0
  · subst he
    show parseNumTok (intChars m) = some (m, 0)
    by_cases hm : m < 0
    · simp only [intChars, if_pos hm]
      show (if ('-' : Char) = '-'
          then (parseNumMag (natChars m.natAbs)).map (fun p => (-(p.1 : Int), p.2))
          else (parseNumMag ('-' :: natChars m.natAbs)).map (fun p => ((p.1 : Int), p.2)))
        = some (m, 0)
      rw [if_pos rfl, parseNumMag_int]
      simp only [Option.map_some']
      have : -((m.natAbs : Int)) = m := by
        omega
      rw [this]
    · simp only [intChars, if_neg hm]
      obtain ⟨c, rest, hc, hcd⟩ := @head_digit_of_natChars m.natAbs
      rw [hc]
      show (if c = '-'
          then (parseNumMag rest).map (fun p => (-(p.1 : Int), p.2))
          else (parseNumMag (c :: rest)).map (fun p => ((p.1 : Int), p.2)))
        = some (m, 0)
      rw [if_neg (ne_of_digit hcd (by decide)), ← hc, parseNumMag_int]
      simp only [Option.map_some']
      have : ((m.natAbs : Int)) = m := Int.natAbs_of_nonneg (by omega)
      rw [this]
  · have he1 : 1 ≤ e := Nat.pos_of_ne_zero he
    have hr : m.natAbs % 10 ^ e < 10 ^ e := Nat.mod_lt _ (Nat.pos_pow_of_pos e (by norm_num))
    by_cases hm : m < 0
    · simp only [numChars, if_neg he, if_pos hm]
      show parseNumTok ('-' :: (natChars (m.natAbs / 10 ^ e) ++ '.'
        :: padDigits e (m.natAbs % 10 ^ e))) = some (m, e)
      show (if ('-' : Char) = '-'
          then (parseNumMag (natChars (m.natAbs / 10 ^ e) ++ '.'
            :: padDigits e (m.natAbs % 10 ^ e))).map (fun p => (-(p.1 : Int), p.2))
          else (parseNumMag ('-' :: (natChars (m.natAbs / 10 ^ e) ++ '.'
            :: padDigits e (m.natAbs % 10 ^ e)))).map (fun p => ((p.1 : Int), p.2)))
        = some (m, e)
      rw [if_pos rfl, parseNumMag_dec he1 hr]
      simp only [Option.map_some']
      have hdm : m.natAbs / 10 ^ e * 10 ^ e + m.natAbs % 10 ^ e = m.natAbs := by
        rw [Nat.mul_comm]
        exact Nat.div_add_mod _ _
      rw [hdm]
      have : -((m.natAbs : Int)) = m := by
        omega
      rw [this]
    · simp only [numChars, if_neg he, if_neg hm, List.nil_append]
      obtain ⟨c, rest, hc, hcd⟩ := @head_digit_of_natChars (m.natAbs / 10 ^ e)
      rw [hc]
      show parseNumTok (c :: (rest ++ '.' :: padDigits e (m.natAbs % 10 ^ e))) = some (m, e)
      show (if c = '-'
          then (parseNumMag (rest ++ '.' :: padDigits e (m.natAbs % 10 ^ e))).map
            (fun p => (-(p.1 : Int), p.2))
          else (parseNumMag (c :: (rest ++ '.' :: padDigits e (m.natAbs % 10 ^ e)))).map
            (fun p => ((p.1 : Int), p.2)))
        = some (m, e)
      rw [if_neg (ne_of_digit hcd (by decide))]
      have hfold : c :: (rest ++ '.' :: padDigits e (m.natAbs % 10 ^ e))
          = natChars (m.natAbs / 10 ^ e) ++ '.' :: padDigits e (m.natAbs % 10 ^ e) := by
        rw [hc]; rfl
      rw [hfold, parseNumMag_dec he1 hr]
      simp only [Option.map_some']
      have hdm : m.natAbs / 10 ^ e * 10 ^ e + m.natAbs % 10 ^ e = m.natAbs := by
        rw [Nat.mul_comm]
        exact Nat.div_add_mod _ _
      rw [hdm]
      have : ((m.natAbs : Int)) = m := Int.natAbs_of_nonneg (by omega)
      rw [this]

theorem numChars_ne_nil (m : Int) (e : Nat) : numChars m e ≠ [] := by
  intro h
  have hp := parseNumTok_numChars m e
  rw [h] at hp
  exact absurd hp (by simp [parseNumTok])

theorem numChars_head : ∃ c rest, numChars m e = c :: rest ∧
    (isDigitC c = true ∨ c = '-') := by
  by_cases he : e = 0
  · subst he
    show ∃ c rest, intChars m = c :: rest ∧ _
    by_cases hm : m < 0
    · exact ⟨'-', natChars m.natAbs, by simp [intChars, hm], Or.inr rfl⟩
    · obtain ⟨c, rest, hc, hd⟩ := @head_digit_of_natChars m.natAbs
      exact ⟨c, rest, by simp [intChars, hm, hc], Or.inl hd⟩
  · by_cases hm : m < 0
    · refine ⟨'-', natChars (m.natAbs / 10 ^ e) ++ '.' :: padDigits e (m.natAbs % 10 ^ e),
        ?_, Or.inr rfl⟩
      simp [numChars, he, hm]
    · obtain ⟨c, rest, hc, hd⟩ := @head_digit_of_natChars (m.natAbs / 10 ^ e)
      refine ⟨c, rest ++ '.' :: padDigits e (m.natAbs % 10 ^ e), ?_, Or.inl hd⟩
      simp [numChars, he, hm, hc]

theorem numChars_not_null (m : Int) (e : Nat) : numChars m e ≠ "null".data := by
  intro h
  have hu : 'u' ∈ numChars m e := by rw [h]; decide
  rcases numChars_mem 'u' hu with hd | hd | hd
  · exact absurd hd (by decide)
  · exact absurd hd (by decide)
  · exact absurd hd (by decide)

theorem numChars_not_true (m : Int) (e : Nat) : numChars m e ≠ "true".data := by
  intro h
  have hu : 'r' ∈ numChars m e := by rw [h]; decide
  rcases numChars_mem 'r' hu with hd | hd | hd
  · exact absurd hd (by decide)
  · exact absurd hd (by decide)
  · exact absurd hd (by decide)

theorem numChars_not_false (m : Int) (e : Nat) : numChars m e ≠ "false".data := by
  intro h
  have hu : 'a' ∈ numChars m e := by rw [h]; decide
  rcases numChars_mem 'a' hu with hd | hd | hd
  · exact absurd hd (by decide)
  · exact absurd hd (by decide)
  · exact absurd hd (by decide)

theorem classifyTok_numChars (m : Int) (e : Nat) :
    classifyTok (numChars m e) = .ok (.num m e) := by
  simp only [classifyTok]
  rw [if_neg (numChars_ne_nil m e), if_neg (numChars_not_null m e),
    if_neg (numChars_not_true m e), if_neg (numChars_not_false m e),
    parseNumTok_numChars]

/-- Well-formedness of an encoded scalar token: either a complete quoted
token, or a plain token free of structural characters. -/
def GoodTok (cs : List Char) : Prop :=
  (∃ s, cs = quoteTok s) ∨
  (cs ≠ [] ∧ (∀ c ∈ cs, badChar c = false) ∧
    (∀ c, cs.head? = some c →
      c ≠ '"' ∧ c ≠ ' ' ∧ c ≠ '\t' ∧ c ≠ '[' ∧ c ≠ '{'))

theorem digit_not_badChar {c : Char} (h : isDigitC c = true) : badChar c = false := by
  have h1 : c ≠ ',' := ne_of_digit h (by decide)
  have h2 : c ≠ ':' := ne_of_digit h (by decide)
  have h3 : c ≠ '"' := ne_of_digit h (by decide)
  have h4 : c ≠ '\\' := ne_of_digit h (by decide)
  have h5 : c ≠ '\n' := ne_of_digit h (by decide)
  have h6 : c ≠ '\r' := ne_of_digit h (by decide)
  simp [badChar, h1, h2, h3, h4, h5, h6]

theorem needsQuote_false_facts {c : Char} {tl : List Char}
    (h : needsQuote (c :: tl) = false) :
    badHead c = false ∧ (∀ x ∈ c :: tl, badChar x = false) ∧
      isLitTok (c :: tl) = false ∧ parseNumTok (c :: tl) = none := by
  simp only [needsQuote, Bool.or_eq_false_iff] at h
  obtain ⟨⟨⟨⟨hh, _⟩, ha⟩, hl⟩, hn⟩ := h
  refine ⟨hh, ?_, hl, ?_⟩
  · intro x hx
    exact Bool.eq_false_iff.mpr ((List.any_eq_false.mp ha) x hx)
  · exact Option.not_isSome_iff_eq_none.mp (by simp [hn])

theorem goodTok_encScalar : ∀ v, isScalar v = true → GoodTok (encScalar v) := by
  intro v hv
  match v with
  | .null =>
      refine Or.inr ⟨by decide, ?_, ?_⟩
      · intro c hc
        fin_cases hc <;> decide
      · intro c hc
        injection hc with hc
        subst hc
        refine ⟨by decide, by decide, by decide, by decide, by decide⟩
  | .bool true =>
      refine Or.inr ⟨by decide, ?_, ?_⟩
      · intro c hc
        fin_cases hc <;> decide
      · intro c hc
        injection hc with hc
        subst hc
        refine ⟨by decide, by decide, by decide, by decide, by decide⟩
  | .bool false =>
      refine Or.inr ⟨by decide, ?_, ?_⟩
      · intro c hc
        fin_cases hc <;> decide
      · intro c hc
        injection hc with hc
        subst hc
        refine ⟨by decide, by decide, by decide, by decide, by decide⟩
  | .num m e =>
      refine Or.inr ⟨numChars_ne_nil m e, ?_, ?_⟩
      · intro c hc
        rcases numChars_mem c hc with hd | hd | hd
        · exact digit_not_badChar hd
        · subst hd; decide
        · subst hd; decide
      · intro c hc
        obtain ⟨c', rest, hc', hd⟩ := @numChars_head m e
        rw [show (encScalar (Value.num m e)).head? = (numChars m e).head? from rfl,
          hc'] at hc
        injection hc with hc
        subst hc
        rcases hd with hd | hd
        · exact ⟨ne_of_digit hd (by decide), ne_of_digit hd (by decide),
            ne_of_digit hd (by decide), ne_of_digit hd (by decide),
            ne_of_digit hd (by decide)⟩
        · subst hd
          refine ⟨by decide, by decide, by decide, by decide, by decide⟩
  | .str s =>
      show GoodTok (strChars s.data)
      by_cases hq : needsQuote s.data
      · left
        exact ⟨s.data, by simp [strChars, hq]⟩
      · right
        rw [show strChars s.data = s.data by simp [strChars, hq]]
        cases hsd : s.data with
        | nil =>
            rw [hsd] at hq
            exact absurd (rfl : needsQuote [] = true) hq
        | cons c tl =>
            rw [hsd] at hq
            have hf := needsQuote_false_facts (by simpa using hq)
            obtain ⟨hh, ha, _, _⟩ := hf
            refine ⟨by simp, ha, ?_⟩
            intro x hx
            injection hx with hx
            subst hx
            simp only [badHead, Bool.or_eq_false_iff] at hh
            obtain ⟨⟨⟨⟨⟨h1, h2⟩, h3⟩, h4⟩, h5⟩, h6⟩ := hh
            refine ⟨by simpa using h3, by simpa using h1, by simpa using h2,
              by simpa using h4, by simpa using h5⟩

theorem strMk_data (s : String) : String.mk s.data = s := rfl

theorem classifyTok_plain {c : Char} {tl : List Char}
    (h : needsQuote (c :: tl) = false) :
    classifyTok (c :: tl) = .ok (.str (String.mk (c :: tl))) := by
  obtain ⟨_, _, hl, hn⟩ := needsQuote_false_facts h
  simp only [isLitTok, Bool.or_eq_false_iff] at hl
  obtain ⟨⟨hl1, hl2⟩, hl3⟩ := hl
  simp only [classifyTok]
  rw [if_neg (by simp), if_neg (by simpa using hl1), if_neg (by simpa using hl2),
    if_neg (by simpa using hl3), hn]

theorem scalarOfToken_encScalar : ∀ v, isScalar v = true →
    scalarOfToken (encScalar v) = .ok v := by
  intro v hv
  match v with
  | .null => rfl
  | .bool true => rfl
  | .bool false => rfl
  | .num m e =>
      show scalarOfToken (numChars m e) = .ok (.num m e)
      obtain ⟨c, rest, hc, hd⟩ := @numChars_head m e
      rw [hc]
      have hcq : c ≠ '"' := by
        rcases hd with hd | hd
        · exact ne_of_digit hd (by decide)
        · subst hd; decide
      show (if c = '"' then _ else classifyTok (c :: rest)) = _
      rw [if_neg hcq, ← hc, classifyTok_numChars]
  | .str s =>
      show scalarOfToken (strChars s.data) = .ok (.str s)
      by_cases hq : needsQuote s.data
      · rw [show strChars s.data = quoteTok s.data by simp [strChars, hq]]
        show scalarOfToken ('"' :: (escChars s.data ++ ['"'])) = _
        show (if ('"' : Char) = '"'
            then match parseQuoted ('"' :: (escChars s.data ++ ['"'])) with
              | some (t, r) =>
                  if r = [] then Except.ok (Value.str (String.mk t))
                  else Except.error DErr.malformed
              | none => Except.error DErr.malformed
            else classifyTok ('"' :: (escChars s.data ++ ['"'])))
          = Except.ok (Value.str s)
        rw [if_pos rfl]
        have hp : parseQuoted ('"' :: (escChars s.data ++ ['"'])) = some (s.data, []) := by
          have := parseQuoted_quoteTok s.data []
          simpa [quoteTok] using this
        rw [hp]
        simp [strMk_data]
      · rw [show strChars s.data = s.data by simp [strChars, hq]]
        cases hsd : s.data with
        | nil =>
            rw [hsd] at hq
            exact absurd (rfl : needsQuote [] = true) hq
        | cons c tl =>
            rw [hsd] at hq
            have hq' : needsQuote (c :: tl) = false := by simpa using hq
            obtain ⟨hh, _, _, _⟩ := needsQuote_false_facts hq'
            have hcq : c ≠ '"' := by
              simp only [badHead, Bool.or_eq_false_iff] at hh
              simpa using hh.1.1.1.2
            show (if c = '"' then _ else classifyTok (c :: tl)) = _
            rw [if_neg hcq, classifyTok_plain hq']
            rw [← hsd, strMk_data]

/-! ## Keys and generic scanning -/

/-- Scan characters up to (excluding) the first stop character. -/
def scanTo (stop : Char → Bool) : List Char → List Char × List Char
  | [] => ([], [])
  | c :: cs =>
      if stop c then ([], c :: cs)
      else
        let p := scanTo stop cs
        (c :: p.1, p.2)

theorem scanTo_append (stop : Char → Bool) (tok rest : List Char)
    (htok : ∀ c ∈ tok, stop c = false)
    (hrest : ∀ c, rest.head? = some c → stop c = true) :
    scanTo stop (tok ++ rest) = (tok, rest) := by
  induction tok with
  | nil =>
      cases rest with
      | nil => rfl
      | cons r rs =>
          have hr := hrest r rfl
          simp only [List.nil_append, scanTo]
          rw [if_pos hr]
  | cons c cs ih =>
      have hc := htok c (List.mem_cons_self c cs)
      have hih := ih (fun x hx => htok x (List.mem_cons_of_mem c hx))
      simp only [List.cons_append, scanTo]
      rw [if_neg (by simp [hc])]
      have hap : cs.append rest = cs ++ rest := rfl
      rw [hap, hih]

/-- Characters that end an (unquoted) key in key position. -/
def keyStop (c : Char) : Bool := c = ':' || c = '['

/-- Parse a key token (quoted or unquoted) at the start of a line;
returns the key and the remaining characters. -/
def parseKey (cs : List Char) : Except DErr (String × List Char) :=
  match cs with
  | [] => .error .malformed
  | c :: _ =>
      if c = '"' then
        match parseQuoted cs with
        | some (s, r) => .ok (String.mk s, r)
        | none => .error .malformed
      else
        let p := scanTo keyStop cs
        .ok (String.mk p.1, p.2)

/-- Well-formedness of an encoded key token. -/
def GoodKey (cs : List Char) : Prop :=
  (∃ s, cs = quoteTok s) ∨
  (cs ≠ [] ∧
    (∀ c ∈ cs, keyStop c = false ∧ c ≠ ',' ∧ c ≠ '}' ∧ c ≠ '\\' ∧ c ≠ '\n' ∧ c ≠ '\r') ∧
    (∀ c, cs.head? = some c → c ≠ '"' ∧ c ≠ ' ' ∧ c ≠ '\t') ∧
    cs ≠ "{}".data)

theorem keyNeedsQuote_false_facts {c : Char} {tl : List Char}
    (h : keyNeedsQuote (c :: tl) = false) :
    (c = ' ' || c = '\t' || c = '"') = false ∧
      (∀ x ∈ c :: tl, (x = ':' || x = '[' || x = ',' || x = '}' ||
        x = '\\' || x = '\n' || x = '\r' : Bool) = false) ∧
      (c :: tl) ≠ "{}".data := by
  simp only [keyNeedsQuote, Bool.or_eq_false_iff] at h
  obtain ⟨⟨⟨hh, _⟩, ha⟩, hm⟩ := h
  refine ⟨by simpa using hh, ?_, by simpa using hm⟩
  intro x hx
  exact Bool.eq_false_iff.mpr ((List.any_eq_false.mp ha) x hx)

theorem goodKey_keyChars (k : String) : GoodKey (keyChars k) := by
  by_cases hq : keyNeedsQuote k.data
  · left
    exact ⟨k.data, by simp [keyChars, hq]⟩
  · right
    rw [show keyChars k = k.data by simp [keyChars, hq]]
    cases hsd : k.data with
    | nil =>
        rw [hsd] at hq
        exact absurd (rfl : keyNeedsQuote [] = true) hq
    | cons c tl =>
        rw [hsd] at hq
        have hf := keyNeedsQuote_false_facts (by simpa using hq)
        obtain ⟨hh, ha, hm⟩ := hf
        refine ⟨by simp, ?_, ?_, hm⟩
        · intro x hx
          have := ha x hx
          simp only [Bool.or_eq_false_iff] at this
          obtain ⟨⟨⟨⟨⟨⟨h1, h2⟩, h3⟩, h4⟩, h5⟩, h6⟩, h7⟩ := this
          refine ⟨?_, by simpa using h3, by simpa using h4,
            by simpa using h5, by simpa using h6, by simpa using h7⟩
          simp [keyStop]
          exact ⟨by simpa using h1, by simpa using h2⟩
        · intro x hx
          injection hx with hx
          subst hx
          simp only [Bool.or_eq_false_iff] at hh
          obtain ⟨⟨h1, h2⟩, h3⟩ := hh
          exact ⟨by simpa using h3, by simpa using h1, by simpa using h2⟩

theorem parseKey_keyChars (k : String) (rest : List Char)
    (hrest : ∀ c, rest.head? = some c → keyStop c = true) :
    parseKey (keyChars k ++ rest) = .ok (k, rest) := by
  by_cases hq : keyNeedsQuote k.data
  · rw [show keyChars k = quoteTok k.data by simp [keyChars, hq]]
    show parseKey ('"' :: (escChars k.data ++ ['"']) ++ rest) = _
    have hsq : '"' :: (escChars k.data ++ ['"']) ++ rest
        = '"' :: (escChars k.data ++ '"' :: rest) := by simp
    rw [hsq]
    show (if ('"' : Char) = '"'
        then match parseQuoted ('"' :: (escChars k.data ++ '"' :: rest)) with
          | some (t, r) => Except.ok (String.mk t, r)
          | none => Except.error DErr.malformed
        else Except.ok (String.mk (scanTo keyStop ('"' :: (escChars k.data ++ '"' :: rest))).1,
          (scanTo keyStop ('"' :: (escChars k.data ++ '"' :: rest))).2))
      = Except.ok (k, rest)
    rw [if_pos rfl]
    have hp : parseQuoted ('"' :: (escChars k.data ++ '"' :: rest)) = some (k.data, rest) := by
      have := parseQuoted_quoteTok k.data rest
      simpa [quoteTok] using this
    rw [hp]
  · rw [show keyChars k = k.data by simp [keyChars, hq]]
    cases hsd : k.data with
    | nil =>
        rw [hsd] at hq
        exact absurd (rfl : keyNeedsQuote [] = true) hq
    | cons c tl =>
        rw [hsd] at hq
        have hf := keyNeedsQuote_false_facts (by simpa using hq)
        obtain ⟨hh, ha, _⟩ := hf
        have hc : c ≠ '"' := by
          simp only [Bool.or_eq_false_iff] at hh
          simpa using hh.2
        have hsc : scanTo keyStop ((c :: tl) ++ rest) = (c :: tl, rest) := by
          refine scanTo_append keyStop _ _ ?_ hrest
          intro x hx
          have := ha x hx
          simp only [Bool.or_eq_false_iff] at this
          simp [keyStop]
          exact ⟨by simpa using this.1.1.1.1.1.1, by simpa using this.1.1.1.1.1.2⟩
        show (if c = '"'
            then match parseQuoted (c :: tl ++ rest) with
              | some (t, r) => Except.ok (String.mk t, r)
              | none => Except.error DErr.malformed
            else Except.ok (String.mk (scanTo keyStop (c :: tl ++ rest)).1,
              (scanTo keyStop (c :: tl ++ rest)).2))
          = Except.ok (k, rest)
        rw [if_neg hc]
        rw [show (c :: tl ++ rest) = ((c :: tl) ++ rest) from rfl, hsc]
        show Except.ok (String.mk (c :: tl), rest) = Except.ok (k, rest)
        rw [← hsd, strMk_data]

/-! ## Encoder (spec §4.2–§4.3, default options) -/

/-- A rendered line: indentation depth and content. -/
abbrev LineE := Nat × List Char

/-- Comma-join a list of tokens. -/
def joinC : List (List Char) → List Char
  | [] => []
  | [t] => t
  | t :: ts => t ++ ',' :: joinC ts

/-- Modelled from the spec: the tabular-array detector (§4.2) — an array
renders as a tabular block iff it is non-empty, every element is an
object, all elements share the same ordered key list, and every field
value is a scalar.  A shared empty key list is excluded since a tabular
row must occupy a (non-blank) line.  Returns the ordered field list. -/
def tabFields? (xs : List Value) : Option (List String) :=
  match xs with
  | .obj kvs :: _ =>
      let ks := kvs.map Prod.fst
      if ks ≠ [] ∧ xs.all (fun x =>
          match x with
          | .obj kvs' =>
              decide (kvs'.map Prod.fst = ks) && kvs'.all (fun kv => isScalar kv.2)
          | _ => false)
      then some ks else none
  | _ => none

/-- One tabular row: the delimiter-joined scalar field values (§4.3). -/
def rowChars (v : Value) : List Char :=
  match v with
  | .obj kvs => joinC (kvs.map (fun kv => encScalar kv.2))
  | _ => []

/-- The delimiter-joined header field list. -/
def fieldsChars (fs : List String) : List Char := joinC (fs.map keyChars)

/-- Tabular header line content: `pre[N]{f1,f2,...}:`. -/
def tabHeader (pre : List Char) (n : Nat) (fs : List String) : List Char :=
  pre ++ '[' :: natChars n ++ ']' :: '{' :: fieldsChars fs ++ ['}', ':']

/-- List header line content: `pre[N]:`. -/
def listHeader (pre : List Char) (n : Nat) : List Char :=
  pre ++ '[' :: natChars n ++ [']', ':']

/-- Render the tabular rows of an array at the given depth. -/
def encRows (rd : Nat) : List Value → List LineE
  | [] => []
  | x :: tl => (rd, rowChars x) :: encRows rd tl

mutual
/-- Modelled from the spec: render the entries of an object, one `key:`
line per entry, child blocks one level deeper, arrays fused with their
key into a `key[N]...:` header (§4.3). -/
def encEntries : Nat → List (String × Value) → List LineE
  | _, [] => []
  | d, (k, v) :: tl =>
      (match v with
       | .obj kvs =>
           (d, keyChars k ++ [':']) ::
             (if kvs.isEmpty then [(d + 1, "{}".data)] else encEntries (d + 1) kvs)
       | .arr xs =>
           (match tabFields? xs with
            | some fs => (d, tabHeader (keyChars k) xs.length fs) :: encRows (d + 1) xs
            | none => (d, listHeader (keyChars k) xs.length) :: encItems (d + 1) xs)
       | sc => [(d, keyChars k ++ ':' :: ' ' :: encScalar sc)])
      ++ encEntries d tl

/-- Modelled from the spec: render list-array items, scalars as `- v`
lines, containers as a `-` marker line followed by the element block one
level deeper (§4.3). -/
def encItems : Nat → List Value → List LineE
  | _, [] => []
  | rd, v :: tl =>
      (match v with
       | .obj kvs =>
           (rd, ['-']) ::
             (if kvs.isEmpty then [(rd + 1, "{}".data)] else encEntries (rd + 1) kvs)
       | .arr xs =>
           (rd, ['-']) ::
             (match tabFields? xs with
              | some fs => (rd + 1, tabHeader [] xs.length fs) :: encRows (rd + 2) xs
              | none => (rd + 1, listHeader [] xs.length) :: encItems (rd + 2) xs)
       | sc => [(rd, '-' :: ' ' :: encScalar sc)])
      ++ encItems rd tl
end

/-- Modelled from the spec: render a whole value as depth-tagged lines —
a scalar is a single line, an empty object the explicit `{}` marker, a
non-empty object its entry lines, and an array its header followed by
rows/items (§4.3, §8: at the root the rows/items are not indented,
matching the documented tabular output exactly). -/
def encodeLines (v : Value) : List LineE :=
  match v with
  | .obj kvs =>
      if kvs.isEmpty then [(0, "{}".data)]
      else encEntries 0 kvs
  | .arr xs =>
      (match tabFields? xs with
       | some fs => (0, tabHeader [] xs.length fs) :: encRows 0 xs
       | none => (0, listHeader [] xs.length) :: encItems 0 xs)
  | sc => [(0, encScalar sc)]

/-- Render a line with two spaces of indentation per depth level. -/
def renderLine (l : LineE) : List Char := List.replicate (2 * l.1) ' ' ++ l.2

/-- Join lines with newlines. -/
def joinNl : List (List Char) → List Char
  | [] => []
  | [l] => l
  | l :: ls => l ++ '\n' :: joinNl ls

/-- Modelled from the spec: `encode(value, options)` of §6 at the default
options (`delimiter = ','`, `indent = 2`, `keyFolding = off`), the
behaviour the repository's `encodeToToon` wrapper delegates to. -/
def encodeToToon (v : Value) : String :=
  String.mk (joinNl ((encodeLines v).map renderLine))

/-! ## Decoder (spec §4.4, strict mode, default options) -/

/-- A whitespace-only (blank) line; blank lines are skipped and never
counted as data rows (§4.4). -/
def isBlankL (cs : List Char) : Bool := cs.all (fun c => c = ' ' || c = '\t' || c = '\r')

/-- Count leading space characters. -/
def countSp : List Char → Nat
  | [] => 0
  | c :: cs => if c = ' ' then countSp cs + 1 else 0

/-- Drop leading space characters. -/
def dropSp : List Char → List Char
  | [] => []
  | c :: cs => if c = ' ' then dropSp cs else c :: cs

/-- Split on newlines (first line, remaining lines). -/
def splitNl : List Char → List Char × List (List Char)
  | [] => ([], [])
  | c :: cs =>
      let p := splitNl cs
      if c = '\n' then ([], p.1 :: p.2) else (c :: p.1, p.2)

/-- The physical lines of a text. -/
def linesOf (cs : List Char) : List (List Char) := (splitNl cs).1 :: (splitNl cs).2

/-- Modelled from the spec: tokenization into depth-tagged lines — each
line's depth is its leading-space count divided by `indentSize = 2`;
strict mode requires the count to be an exact multiple, else
IndentationError; blank lines are skipped (§4.4). -/
def mkLines : List (List Char) → Except DErr (List LineE)
  | [] => .ok []
  | r :: rs => do
      let tl ← mkLines rs
      if isBlankL r then .ok tl
      else
        let n := countSp r
        if n % 2 = 0 then .ok ((n / 2, dropSp r) :: tl)
        else .error .indentation

/-- Stop characters for an unquoted row token. -/
def commaStop (c : Char) : Bool := c = ','

/-- Stop characters for an unquoted header field. -/
def fieldStop (c : Char) : Bool := c = ',' || c = '}'

/-- Split one tabular row into its decoded scalar field values:
quote-aware comma splitting, then per-token classification (§4.4). -/
def splitRowF : Nat → List Char → Except DErr (List Value)
  | 0, _ => .error .malformed
  | f + 1, cs =>
      match cs with
      | [] => .ok []
      | c :: _ =>
          if c = '"' then
            match parseQuoted cs with
            | some (s, r) =>
                (match r with
                 | [] => .ok [.str (String.mk s)]
                 | c2 :: r2 =>
                     if c2 = ',' then do
                       let vs ← splitRowF f r2
                       .ok (.str (String.mk s) :: vs)
                     else .error .malformed)
            | none => .error .malformed
          else
            let p := scanTo commaStop cs
            do
              let v ← classifyTok p.1
              match p.2 with
              | [] => .ok [v]
              | _ :: r2 => do
                  let vs ← splitRowF f r2
                  .ok (v :: vs)

def splitRow (cs : List Char) : Except DErr (List Value) :=
  splitRowF (cs.length + 1) cs

/-- Split the header field list (after `{`): quote-aware comma splitting
up to the closing `}`; returns the fields and the characters after the
`}`. -/
def splitFieldsF : Nat → List Char → Except DErr (List String × List Char)
  | 0, _ => .error .malformed
  | f + 1, cs =>
      match cs with
      | [] => .error .malformed
      | c :: tl =>
          if c = '}' then .ok ([], tl)
          else if c = '"' then
            match parseQuoted cs with
            | some (s, r) =>
                (match r with
                 | [] => .error .malformed
                 | c2 :: r2 =>
                     if c2 = ',' then do
                       let p ← splitFieldsF f r2
                       .ok (String.mk s :: p.1, p.2)
                     else if c2 = '}' then .ok ([String.mk s], r2)
                     else .error .malformed)
            | none => .error .malformed
          else
            let p := scanTo fieldStop cs
            match p.2 with
            | [] => .error .malformed
            | c2 :: r2 =>
                if c2 = ',' then do
                  let q ← splitFieldsF f r2
                  .ok (String.mk p.1 :: q.1, q.2)
                else .ok ([String.mk p.1], r2)

def splitFields (cs : List Char) : Except DErr (List String × List Char) :=
  splitFieldsF (cs.length + 1) cs

/-- Parse an array header after the opening `[`: the declared length,
`]`, then either `:` (list form) or `{fields}:` (tabular form); the
header must end the line (§4.3–§4.4). -/
def parseHeader (cs : List Char) : Except DErr (Nat × Option (List String)) :=
  let p := takeDigits cs
  if p.1 = [] then .error .malformed
  else
    match p.2 with
    | [] => .error .malformed
    | c :: r1 =>
        if c = ']' then
          match r1 with
          | [] => .error .malformed
          | c2 :: r2 =>
              if c2 = ':' then
                if r2 = [] then .ok (parseNat p.1, none) else .error .malformed
              else if c2 = '{' then do
                let q ← splitFields r2
                if q.2 = [':'] then .ok (parseNat p.1, some q.1)
                else .error .malformed
              else .error .malformed
        else .error .malformed

mutual
/-- Modelled from the spec: parse the entries of an open object — a run
of `key: ...` lines at the expected depth; a shallower line closes the
object, a deeper one is an IndentationError; `key:` opens a child block
one level deeper, `key[N]...:` opens an array (§4.4). -/
def pEntries : Nat → Nat → List LineE → Except DErr (List (String × Value) × List LineE)
  | 0, _, _ => .error .unexpectedEnd
  | f + 1, d, ls =>
      match ls with
      | [] => .ok ([], [])
      | (d', c) :: tl =>
          if d' < d then .ok ([], (d', c) :: tl)
          else if d > d' then .error .indentation
          else do
            let kr ← parseKey c
            match kr.2 with
            | [] => .error .malformed
            | rc :: rv =>
                if rc = ':' then
                  match rv with
                  | [] =>
                      (match tl with
                       | [] => .error .unexpectedEnd
                       | (d₁, c₁) :: tl₁ =>
                           if d₁ = d + 1 ∧ c₁ = "{}".data then do
                             let p ← pEntries f d tl₁
                             .ok ((kr.1, .obj []) :: p.1, p.2)
                           else if d₁ < d + 1 then .error .unexpectedEnd
                           else do
                             let q ← pEntries f (d + 1) tl
                             let p ← pEntries f d q.2
                             .ok ((kr.1, .obj q.1) :: p.1, p.2))
                  | sp :: tok =>
                      if sp = ' ' then do
                        let v ← scalarOfToken tok
                        let p ← pEntries f d tl
                        .ok ((kr.1, v) :: p.1, p.2)
                      else .error .malformed
                else if rc = '[' then do
                  let hd ← parseHeader rv
                  match hd.2 with
                  | some fs => do
                      let rows ← pRows f (d + 1) fs hd.1 tl
                      let p ← pEntries f d rows.2
                      .ok ((kr.1, .arr rows.1) :: p.1, p.2)
                  | none => do
                      let its ← pItems f (d + 1) hd.1 tl
                      let p ← pEntries f d its.2
                      .ok ((kr.1, .arr its.1) :: p.1, p.2)
                else .error .malformed

/-- Modelled from the spec: `ExpectTabularRows` — exactly `n` rows at
the expected depth, each splitting into exactly `fs.length` fields,
otherwise LengthMismatchError (§4.4, §8). -/
def pRows : Nat → Nat → List String → Nat → List LineE → Except DErr (List Value × List LineE)
  | 0, _, _, _, _ => .error .unexpectedEnd
  | _ + 1, _, _, 0, ls => .ok ([], ls)
  | f + 1, rd, fs, n + 1, ls =>
      match ls with
      | [] => .error .lengthMismatch
      | (d', c) :: tl =>
          if d' = rd then do
            let vs ← splitRow c
            if vs.length = fs.length then do
              let p ← pRows f rd fs n tl
              .ok (.obj (fs.zip vs) :: p.1, p.2)
            else .error .lengthMismatch
          else .error .lengthMismatch

/-- Modelled from the spec: `ExpectListItems` — exactly `n` items, each
a `- v` scalar line or a `-` marker line followed by the element block
one level deeper; exhausting the input with items pending is
UnexpectedEndError (§4.4). -/
def pItems : Nat → Nat → Nat → List LineE → Except DErr (List Value × List LineE)
  | 0, _, _, _ => .error .unexpectedEnd
  | _ + 1, _, 0, ls => .ok ([], ls)
  | f + 1, rd, n + 1, ls =>
      match ls with
      | [] => .error .unexpectedEnd
      | (d', c) :: tl =>
          if d' = rd then
            if c = ['-'] then
              match tl with
              | [] => .error .unexpectedEnd
              | (d₁, c₁) :: tl₁ =>
                  if d₁ = rd + 1 then
                    match c₁ with
                    | [] => .error .malformed
                    | hc :: hrest =>
                        if hc = '[' then do
                          let hd ← parseHeader hrest
                          match hd.2 with
                          | some fs => do
                              let rows ← pRows f (rd + 2) fs hd.1 tl₁
                              let p ← pItems f rd n rows.2
                              .ok (.arr rows.1 :: p.1, p.2)
                          | none => do
                              let its ← pItems f (rd + 2) hd.1 tl₁
                              let p ← pItems f rd n its.2
                              .ok (.arr its.1 :: p.1, p.2)
                        else if c₁ = "{}".data then do
                          let p ← pItems f rd n tl₁
                          .ok (.obj [] :: p.1, p.2)
                        else do
                          let q ← pEntries f (rd + 1) tl
                          let p ← pItems f rd n q.2
                          .ok (.obj q.1 :: p.1, p.2)
                  else .error .malformed
            else
              match c with
              | [] => .error .malformed
              | mc :: mrest =>
                  if mc = '-' then
                    match mrest with
                    | [] => .error .malformed
                    | sc :: tok =>
                        if sc = ' ' then do
                          let v ← scalarOfToken tok
                          let p ← pItems f rd n tl
                          .ok (v :: p.1, p.2)
                        else .error .malformed
                  else .error .malformed
          else .error .lengthMismatch
end

/-- Modelled from the spec: parse a whole document — a root array block
(`[N]...:` header with unindented rows/items), the empty-object marker,
a run of root object entries, or a single scalar line; trailing lines
are malformed (§4.4, §8). -/
def pRoot (f : Nat) (ls : List LineE) : Except DErr Value :=
  match ls with
  | [] => .error .unexpectedEnd
  | (d, c) :: tl =>
      if d ≠ 0 then .error .indentation
      else
        match c with
        | [] => .error .malformed
        | hc :: hrest =>
            if hc = '[' then do
              let hd ← parseHeader hrest
              match hd.2 with
              | some fs => do
                  let rows ← pRows f 0 fs hd.1 tl
                  if rows.2 = [] then .ok (.arr rows.1) else .error .malformed
              | none => do
                  let its ← pItems f 0 hd.1 tl
                  if its.2 = [] then .ok (.arr its.1) else .error .malformed
            else if c = "{}".data then
              (if tl = [] then .ok (.obj []) else .error .malformed)
            else if hc = '"' then
              match parseQuoted c with
              | some (s, r) =>
                  if r = [] then
                    (if tl = [] then .ok (.str (String.mk s)) else .error .malformed)
                  else do
                    let p ← pEntries f 0 ls
                    if p.2 = [] then .ok (.obj p.1) else .error .malformed
              | none => .error .malformed
            else if c.any (fun x => x = ':') then do
              let p ← pEntries f 0 ls
              if p.2 = [] then .ok (.obj p.1) else .error .malformed
            else if tl = [] then scalarOfToken c
            else .error .malformed

/-- Modelled from the spec: `decode(text, options)` of §6 at the default
options (`strict = true`, `expandPaths = off`, `indentSize = 2`), the
behaviour the repository's `decodeFromToon` wrapper delegates to.  Every
grammar or structural violation is a typed `DErr`; no partial result is
possible. -/
def decodeFromToon (t : String) : Except DErr Value := do
  let ls ← mkLines (linesOf t.data)
  pRoot (ls.length + 1) ls

/-! ## Line-level round-trip -/

/-- Well-formedness of an emitted line: non-empty content whose head is
not whitespace, containing no newline. -/
def GoodL (l : LineE) : Prop :=
  l.2 ≠ [] ∧ (∀ c, l.2.head? = some c → (c ≠ ' ' ∧ c ≠ '\t' ∧ c ≠ '\r')) ∧
    (∀ c ∈ l.2, c ≠ '\n')

theorem splitNl_no_nl {cs : List Char} (h : ∀ c ∈ cs, c ≠ '\n') :
    splitNl cs = (cs, []) := by
  induction cs with
  | nil => rfl
  | cons c tl ih =>
      have hc : c ≠ '\n' := h c (List.mem_cons_self c tl)
      have hih := ih (fun x hx => h x (List.mem_cons_of_mem c hx))
      simp only [splitNl, hih]
      rw [if_neg hc]

theorem splitNl_append {l rest : List Char} (h : ∀ c ∈ l, c ≠ '\n') :
    splitNl (l ++ '\n' :: rest) = (l, (splitNl rest).1 :: (splitNl rest).2) := by
  induction l with
  | nil =>
      simp only [List.nil_append, splitNl]
      rw [if_pos trivial]
  | cons c tl ih =>
      have hc : c ≠ '\n' := h c (List.mem_cons_self c tl)
      have hih := ih (fun x hx => h x (List.mem_cons_of_mem c hx))
      simp only [List.cons_append, splitNl]
      rw [show tl.append ('\n' :: rest) = tl ++ '\n' :: rest from rfl, hih]
      rw [if_neg hc]

theorem linesOf_joinNl : ∀ (parts : List (List Char)),
    parts ≠ [] → (∀ p ∈ parts, ∀ c ∈ p, c ≠ '\n') →
    linesOf (joinNl parts) = parts := by
  intro parts
  induction parts with
  | nil => intro h _; exact absurd rfl h
  | cons p ps ih =>
      intro _ hnl
      cases ps with
      | nil =>
          show linesOf (joinNl [p]) = [p]
          show linesOf p = [p]
          unfold linesOf
          rw [splitNl_no_nl (hnl p (List.mem_cons_self p []))]
      | cons q qs =>
          show linesOf (p ++ '\n' :: joinNl (q :: qs)) = p :: q :: qs
          unfold linesOf
          rw [splitNl_append (hnl p (List.mem_cons_self p _))]
          have hih := ih (by simp) (fun x hx c hc => hnl x (List.mem_cons_of_mem p hx) c hc)
          unfold linesOf at hih
          exact congrArg (p :: ·) hih

theorem countSp_render (l : LineE) (h : ∀ c, l.2.head? = some c → c ≠ ' ') :
    countSp (renderLine l) = 2 * l.1 := by
  show countSp (List.replicate (2 * l.1) ' ' ++ l.2) = 2 * l.1
  generalize 2 * l.1 = n
  induction n with
  | zero =>
      simp only [List.replicate, List.nil_append]
      cases hc : l.2 with
      | nil => rfl
      | cons c tl =>
          have := h c (by rw [hc]; rfl)
          simp only [countSp]
          rw [if_neg this]
  | succ n ih =>
      simp only [List.replicate, List.cons_append, countSp]
      rw [if_pos trivial]
      show countSp (List.replicate n ' ' ++ l.2) + 1 = n + 1
      rw [ih]

theorem dropSp_render (l : LineE) (h : ∀ c, l.2.head? = some c → c ≠ ' ') :
    dropSp (renderLine l) = l.2 := by
  show dropSp (List.replicate (2 * l.1) ' ' ++ l.2) = l.2
  generalize 2 * l.1 = n
  induction n with
  | zero =>
      simp only [List.replicate, List.nil_append]
      cases hc : l.2 with
      | nil => rfl
      | cons c tl =>
          have := h c (by rw [hc]; rfl)
          simp only [dropSp]
          rw [if_neg this]
  | succ n ih =>
      simp only [List.replicate, List.cons_append, dropSp]
      rw [if_pos trivial]
      show dropSp (List.replicate n ' ' ++ l.2) = l.2
      rw [ih]

theorem isBlankL_render (l : LineE) (hg : GoodL l) :
    isBlankL (renderLine l) = false := by
  obtain ⟨hne, hh, _⟩ := hg
  cases hc : l.2 with
  | nil => exact absurd hc hne
  | cons c tl =>
      obtain ⟨h1, h2, h3⟩ := hh c (by rw [hc]; rfl)
      apply List.all_eq_false.mpr
      refine ⟨c, ?_, ?_⟩
      · show c ∈ List.replicate (2 * l.1) ' ' ++ l.2
        rw [hc]
        exact List.mem_append_right _ (List.mem_cons_self c tl)
      · simp [h1, h2, h3]

theorem mkLines_render : ∀ (ls : List LineE), (∀ l ∈ ls, GoodL l) →
    mkLines (ls.map renderLine) = .ok ls := by
  intro ls
  induction ls with
  | nil => intro _; rfl
  | cons l tl ih =>
      intro hg
      have hgl := hg l (List.mem_cons_self l tl)
      have hih := ih (fun x hx => hg x (List.mem_cons_of_mem l hx))
      show mkLines (renderLine l :: tl.map renderLine) = _
      simp only [mkLines, hih]
      show (do
        let tl' ← Except.ok tl
        if isBlankL (renderLine l) then Except.ok tl'
        else
          if countSp (renderLine l) % 2 = 0 then
            Except.ok ((countSp (renderLine l) / 2, dropSp (renderLine l)) :: tl')
          else Except.error DErr.indentation) = Except.ok (l :: tl)
      have hhead : ∀ c, l.2.head? = some c → c ≠ ' ' := fun c hc => (hgl.2.1 c hc).1
      rw [show (do
        let tl' ← Except.ok tl
        if isBlankL (renderLine l) then Except.ok tl'
        else
          if countSp (renderLine l) % 2 = 0 then
            Except.ok ((countSp (renderLine l) / 2, dropSp (renderLine l)) :: tl')
          else Except.error DErr.indentation) =
        (if isBlankL (renderLine l) then Except.ok tl
        else
          if countSp (renderLine l) % 2 = 0 then
            Except.ok ((countSp (renderLine l) / 2, dropSp (renderLine l)) :: tl)
          else Except.error DErr.indentation) from rfl]
      rw [isBlankL_render l hgl, if_neg (by simp), countSp_render l hhead,
        dropSp_render l hhead]
      rw [if_pos (by omega)]
      have : 2 * l.1 / 2 = l.1 := by omega
      rw [this]

theorem renderLine_no_nl (l : LineE) (hg : GoodL l) :
    ∀ c ∈ renderLine l, c ≠ '\n' := by
  intro c hc
  rcases List.mem_append.mp hc with h | h
  · have : c = ' ' := List.eq_of_mem_replicate h
    subst this; decide
  · exact hg.2.2 c h

theorem decode_lines_encode (ls : List LineE) (hne : ls ≠ [])
    (hg : ∀ l ∈ ls, GoodL l) :
    mkLines (linesOf (joinNl (ls.map renderLine))) = .ok ls := by
  rw [linesOf_joinNl (ls.map renderLine) (by simpa using hne)
    (by
      intro p hp c hc
      obtain ⟨l, hl, hpl⟩ := List.mem_map.mp hp
      subst hpl
      exact renderLine_no_nl l (hg l hl) c hc)]
  exact mkLines_render ls hg

/-! ## Character facts about emitted tokens -/

theorem escChars_mem : ∀ (s : List Char), ∀ c ∈ escChars s,
    c = '\\' ∨ c = 'n' ∨ (c ∈ s ∧ c ≠ '\n') := by
  intro s
  induction s with
  | nil => intro c hc; simp [escChars] at hc
  | cons x xs ih =>
      intro c hc
      by_cases h1 : x = '\\' ∨ x = '"'
      · rw [escChars_cons_esc h1] at hc
        rcases List.mem_cons.mp hc with h | h
        · exact Or.inl h
        · rcases List.mem_cons.mp h with h | h
          · subst h
            rcases h1 with h1 | h1 <;> subst h1
            · exact Or.inl rfl
            · exact Or.inr (Or.inr ⟨List.mem_cons_self _ _, by decide⟩)
          · rcases ih c h with h | h | h
            · exact Or.inl h
            · exact Or.inr (Or.inl h)
            · exact Or.inr (Or.inr ⟨List.mem_cons_of_mem x h.1, h.2⟩)
      · by_cases h2 : x = '\n'
        · subst h2
          rw [escChars_cons_nl] at hc
          rcases List.mem_cons.mp hc with h | h
          · exact Or.inl h
          · rcases List.mem_cons.mp h with h | h
            · exact Or.inr (Or.inl h)
            · rcases ih c h with h | h | h
              · exact Or.inl h
              · exact Or.inr (Or.inl h)
              · exact Or.inr (Or.inr ⟨List.mem_cons_of_mem _ h.1, h.2⟩)
        · rw [escChars_cons_plain h1 h2] at hc
          rcases List.mem_cons.mp hc with h | h
          · subst h
            exact Or.inr (Or.inr ⟨List.mem_cons_self _ _, h2⟩)
          · rcases ih c h with h | h | h
            · exact Or.inl h
            · exact Or.inr (Or.inl h)
            · exact Or.inr (Or.inr ⟨List.mem_cons_of_mem _ h.1, h.2⟩)

theorem escChars_no_nl (s : List Char) : ∀ c ∈ escChars s, c ≠ '\n' := by
  intro c hc
  rcases escChars_mem s c hc with h | h | h
  · subst h; decide
  · subst h; decide
  · exact h.2

theorem quoteTok_no_nl (s : List Char) : ∀ c ∈ quoteTok s, c ≠ '\n' := by
  intro c hc
  rcases List.mem_cons.mp hc with h | h
  · subst h; decide
  · rcases List.mem_append.mp h with h | h
    · exact escChars_no_nl s c h
    · rcases List.mem_singleton.mp h with h
      subst h; decide

/-- Line-content facts for an encoded scalar token. -/
theorem encScalar_line_facts (v : Value) (hv : isScalar v = true) :
    encScalar v ≠ [] ∧
    (∀ c, (encScalar v).head? = some c → c ≠ ' ' ∧ c ≠ '\t' ∧ c ≠ '\r') ∧
    (∀ c ∈ encScalar v, c ≠ '\n') := by
  rcases goodTok_encScalar v hv with ⟨s, hs⟩ | ⟨hne, hbad, hhead⟩
  · rw [hs]
    refine ⟨by simp [quoteTok], ?_, quoteTok_no_nl s⟩
    intro c hc
    have : c = '"' := by
      show c = '"'
      have : (quoteTok s).head? = some '"' := rfl
      rw [this] at hc
      injection hc with hc
      exact hc.symm
    subst this
    refine ⟨by decide, by decide, by decide⟩
  · refine ⟨hne, ?_, ?_⟩
    · intro c hc
      have hcb := hbad c (by
        cases he : encScalar v with
        | nil => exact absurd he hne
        | cons a tl =>
            rw [he] at hc
            injection hc with hc
            subst hc
            exact List.mem_cons_self a tl)
      have hh := hhead c hc
      simp only [badChar, Bool.or_eq_false_iff] at hcb
      exact ⟨hh.2.1, hh.2.2.1, by simpa using hcb.2⟩
    · intro c hc
      have hcb := hbad c hc
      simp only [badChar, Bool.or_eq_false_iff] at hcb
      simpa using hcb.1.2

/-- Line-content facts for an encoded key token. -/
theorem keyChars_line_facts (k : String) :
    keyChars k ≠ [] ∧
    (∀ c, (keyChars k).head? = some c → c ≠ ' ' ∧ c ≠ '\t' ∧ c ≠ '\r') ∧
    (∀ c ∈ keyChars k, c ≠ '\n') := by
  rcases goodKey_keyChars k with ⟨s, hs⟩ | ⟨hne, hmem, hhead, _⟩
  · rw [hs]
    refine ⟨by simp [quoteTok], ?_, quoteTok_no_nl s⟩
    intro c hc
    have : c = '"' := by
      have h0 : (quoteTok s).head? = some '"' := rfl
      rw [h0] at hc
      injection hc with hc
      exact hc.symm
    subst this
    refine ⟨by decide, by decide, by decide⟩
  · refine ⟨hne, ?_, ?_⟩
    · intro c hc
      have hh := hhead c hc
      have hcm := hmem c (by
        cases he : keyChars k with
        | nil => exact absurd he hne
        | cons a tl =>
            rw [he] at hc
            injection hc with hc
            subst hc
            exact List.mem_cons_self a tl)
      exact ⟨hh.2.1, hh.2.2, hcm.2.2.2.2.2⟩
    · intro c hc
      exact (hmem c hc).2.2.2.2.1

theorem natChars_no_nl (n : Nat) : ∀ c ∈ natChars n, c ≠ '\n' := by
  intro c hc
  exact ne_of_digit (natChars_all_digits c hc) (by decide)

theorem joinC_mem : ∀ (ts : List (List Char)), ∀ c ∈ joinC ts,
    c = ',' ∨ ∃ t ∈ ts, c ∈ t := by
  intro ts
  induction ts with
  | nil => intro c hc; simp [joinC] at hc
  | cons t ts ih =>
      intro c hc
      cases ts with
      | nil =>
          right
          exact ⟨t, List.mem_cons_self t [], hc⟩
      | cons u us =>
          show c = ',' ∨ ∃ x ∈ t :: u :: us, c ∈ x
          have hj : joinC (t :: u :: us) = t ++ ',' :: joinC (u :: us) := rfl
          rw [hj] at hc
          rcases List.mem_append.mp hc with h | h
          · exact Or.inr ⟨t, List.mem_cons_self t _, h⟩
          · rcases List.mem_cons.mp h with h | h
            · exact Or.inl h
            · rcases ih c h with h | ⟨x, hx, hcx⟩
              · exact Or.inl h
              · exact Or.inr ⟨x, List.mem_cons_of_mem t hx, hcx⟩

theorem joinC_head (t : List Char) (ts : List (List Char)) (ht : t ≠ []) :
    (joinC (t :: ts)).head? = t.head? := by
  cases ts with
  | nil => rfl
  | cons u us =>
      have hj : joinC (t :: u :: us) = t ++ ',' :: joinC (u :: us) := rfl
      rw [hj]
      cases t with
      | nil => exact absurd rfl ht
      | cons a tl => rfl

theorem joinC_ne_nil (t : List Char) (ts : List (List Char)) (ht : t ≠ []) :
    joinC (t :: ts) ≠ [] := by
  cases ts with
  | nil => exact ht
  | cons u us =>
      have hj : joinC (t :: u :: us) = t ++ ',' :: joinC (u :: us) := rfl
      rw [hj]
      simp

theorem head?_append_left {α : Type} (xs ys : List α) (h : xs ≠ []) :
    (xs ++ ys).head? = xs.head? := by
  cases xs with
  | nil => exact absurd rfl h
  | cons a tl => rfl

theorem goodL_mk {d : Nat} {cs : List Char} (h1 : cs ≠ [])
    (h2 : ∀ c, cs.head? = some c → c ≠ ' ' ∧ c ≠ '\t' ∧ c ≠ '\r')
    (h3 : ∀ c ∈ cs, c ≠ '\n') : GoodL (d, cs) := ⟨h1, h2, h3⟩

theorem goodL_preline (d : Nat) (pre rest : List Char)
    (hp1 : ∀ c, pre.head? = some c → c ≠ ' ' ∧ c ≠ '\t' ∧ c ≠ '\r')
    (hp2 : ∀ c ∈ pre, c ≠ '\n')
    (hr1 : rest ≠ [])
    (hr2 : ∀ c, rest.head? = some c → c ≠ ' ' ∧ c ≠ '\t' ∧ c ≠ '\r')
    (hr3 : ∀ c ∈ rest, c ≠ '\n') :
    GoodL (d, pre ++ rest) := by
  refine goodL_mk ?_ ?_ ?_
  · cases pre <;> simp [hr1]
  · intro c hc
    cases hpre : pre with
    | nil =>
        rw [hpre] at hc
        exact hr2 c hc
    | cons a tl =>
        rw [hpre] at hc
        rw [head?_append_left _ _ (by simp)] at hc
        rw [← hpre] at hc
        exact hp1 c hc
  · intro c hc
    rcases List.mem_append.mp hc with h | h
    · exact hp2 c h
    · exact hr3 c h

/-- Extraction of the tabular-array detector's decision (spec §4.2). -/
theorem tabFields?_spec {xs : List Value} {fs : List String}
    (h : tabFields? xs = some fs) :
    fs ≠ [] ∧ xs ≠ [] ∧
      ∀ x ∈ xs, ∃ kvs, x = .obj kvs ∧ kvs.map Prod.fst = fs ∧
        ∀ kv ∈ kvs, isScalar kv.2 = true := by
  match xs with
  | [] => exact absurd h (by simp [tabFields?])
  | .null :: tl => exact absurd h (by simp [tabFields?])
  | .bool b :: tl => exact absurd h (by simp [tabFields?])
  | .num m e :: tl => exact absurd h (by simp [tabFields?])
  | .str s :: tl => exact absurd h (by simp [tabFields?])
  | .arr ys :: tl => exact absurd h (by simp [tabFields?])
  | .obj kvs :: tl =>
      simp only [tabFields?] at h
      split at h
      · rename_i hcond
        injection h with h
        subst h
        obtain ⟨hne, hall⟩ := hcond
        refine ⟨hne, by simp, ?_⟩
        intro x hx
        have hx2 := List.all_eq_true.mp hall x hx
        match x with
        | .obj kvs' =>
            simp only [Bool.and_eq_true, decide_eq_true_eq] at hx2
            refine ⟨kvs', rfl, hx2.1, ?_⟩
            intro kv hkv
            exact List.all_eq_true.mp hx2.2 kv hkv
        | .null | .bool _ | .num _ _ | .str _ | .arr _ => simp at hx2
      · exact absurd h (by simp)

theorem encRows_mem : ∀ (xs : List Value) rd, ∀ l ∈ encRows rd xs,
    ∃ x ∈ xs, l = (rd, rowChars x) := by
  intro xs
  induction xs with
  | nil => intro rd l hl; simp [encRows] at hl
  | cons x tl ih =>
      intro rd l hl
      rcases List.mem_cons.mp hl with h | h
      · exact ⟨x, List.mem_cons_self x tl, h⟩
      · obtain ⟨y, hy, hly⟩ := ih rd l h
        exact ⟨y, List.mem_cons_of_mem x hy, hly⟩

theorem goodL_row {kvs : List (String × Value)} (hne : kvs ≠ [])
    (hsc : ∀ kv ∈ kvs, isScalar kv.2 = true) (rd : Nat) :
    GoodL (rd, rowChars (.obj kvs)) := by
  show GoodL (rd, joinC (kvs.map (fun kv => encScalar kv.2)))
  cases hkv : kvs with
  | nil => exact absurd hkv hne
  | cons kv tl =>
      have hsc0 : isScalar kv.2 = true := by
        rw [hkv] at hsc
        exact hsc kv (List.mem_cons_self kv tl)
      obtain ⟨ht1, ht2, ht3⟩ := encScalar_line_facts kv.2 hsc0
      refine goodL_mk ?_ ?_ ?_
      · show joinC (encScalar kv.2 :: tl.map (fun kv => encScalar kv.2)) ≠ []
        exact joinC_ne_nil _ _ ht1
      · intro c hc
        rw [show ((kv :: tl).map (fun kv => encScalar kv.2))
            = encScalar kv.2 :: tl.map (fun kv => encScalar kv.2) from rfl] at hc
        rw [joinC_head _ _ ht1] at hc
        exact ht2 c hc
      · intro c hc
        rcases joinC_mem _ c hc with h | ⟨t, htm, hct⟩
        · subst h; decide
        · obtain ⟨kv', hkv', hkt⟩ := List.mem_map.mp htm
          subst hkt
          have : isScalar kv'.2 = true := by
            rw [hkv] at hsc
            exact hsc kv' hkv'
          exact (encScalar_line_facts kv'.2 this).2.2 c hct

theorem goodL_encRows {xs : List Value} {fs : List String}
    (h : tabFields? xs = some fs) (rd : Nat) :
    ∀ l ∈ encRows rd xs, GoodL l := by
  obtain ⟨hfs, _, hall⟩ := tabFields?_spec h
  intro l hl
  obtain ⟨x, hx, hlx⟩ := encRows_mem xs rd l hl
  subst hlx
  obtain ⟨kvs, hxo, hkeys, hsc⟩ := hall x hx
  subst hxo
  have hne : kvs ≠ [] := by
    intro hk
    subst hk
    simp at hkeys
    exact hfs hkeys
  exact goodL_row hne hsc rd

theorem fieldsChars_no_nl (fs : List String) : ∀ c ∈ fieldsChars fs, c ≠ '\n' := by
  intro c hc
  rcases joinC_mem _ c hc with h | ⟨t, htm, hct⟩
  · subst h; decide
  · obtain ⟨k, _, hkt⟩ := List.mem_map.mp htm
    subst hkt
    exact (keyChars_line_facts k).2.2 c hct

theorem tabHeader_eq (pre : List Char) (n : Nat) (fs : List String) :
    tabHeader pre n fs
      = pre ++ ('[' :: (natChars n ++ (']' :: ('{' :: (fieldsChars fs ++ ['}', ':']))))) := by
  simp [tabHeader]

theorem listHeader_eq (pre : List Char) (n : Nat) :
    listHeader pre n = pre ++ ('[' :: (natChars n ++ [']', ':'])) := by
  simp [listHeader]

theorem goodL_tabHeader (d : Nat) (pre : List Char) (n : Nat) (fs : List String)
    (hp1 : ∀ c, pre.head? = some c → c ≠ ' ' ∧ c ≠ '\t' ∧ c ≠ '\r')
    (hp2 : ∀ c ∈ pre, c ≠ '\n') :
    GoodL (d, tabHeader pre n fs) := by
  rw [tabHeader_eq]
  refine goodL_preline d pre _ hp1 hp2 (by simp) ?_ ?_
  · intro c hc
    injection hc with hc
    subst hc
    refine ⟨by decide, by decide, by decide⟩
  · intro c hc
    have hcm : c = '[' ∨ c ∈ natChars n ∨ c = ']' ∨ c = '{' ∨
        c ∈ fieldsChars fs ∨ c = '}' ∨ c = ':' := by
      simp only [List.mem_cons, List.mem_append, List.mem_singleton] at hc
      tauto
    rcases hcm with h | h | h | h | h | h | h
    · subst h; decide
    · exact natChars_no_nl n c h
    · subst h; decide
    · subst h; decide
    · exact fieldsChars_no_nl fs c h
    · subst h; decide
    · subst h; decide

theorem goodL_listHeader (d : Nat) (pre : List Char) (n : Nat)
    (hp1 : ∀ c, pre.head? = some c → c ≠ ' ' ∧ c ≠ '\t' ∧ c ≠ '\r')
    (hp2 : ∀ c ∈ pre, c ≠ '\n') :
    GoodL (d, listHeader pre n) := by
  rw [listHeader_eq]
  refine goodL_preline d pre _ hp1 hp2 (by simp) ?_ ?_
  · intro c hc
    injection hc with hc
    subst hc
    refine ⟨by decide, by decide, by decide⟩
  · intro c hc
    have hcm : c = '[' ∨ c ∈ natChars n ∨ c = ']' ∨ c = ':' := by
      simp only [List.mem_cons, List.mem_append, List.mem_singleton] at hc
      tauto
    rcases hcm with h | h | h | h
    · subst h; decide
    · exact natChars_no_nl n c h
    · subst h; decide
    · subst h; decide

theorem goodL_entryScalar (d : Nat) (k : String) (v : Value) (hv : isScalar v = true) :
    GoodL (d, keyChars k ++ ':' :: ' ' :: encScalar v) := by
  obtain ⟨hk1, hk2, hk3⟩ := keyChars_line_facts k
  obtain ⟨hv1, hv2, hv3⟩ := encScalar_line_facts v hv
  refine goodL_preline d _ _ hk2 hk3 (by simp) ?_ ?_
  · intro c hc
    injection hc with hc
    subst hc
    refine ⟨by decide, by decide, by decide⟩
  · intro c hc
    rcases List.mem_cons.mp hc with h | h
    · subst h; decide
    · rcases List.mem_cons.mp h with h | h
      · subst h; decide
      · exact hv3 c h

theorem goodL_entryKey (d : Nat) (k : String) :
    GoodL (d, keyChars k ++ [':']) := by
  obtain ⟨hk1, hk2, hk3⟩ := keyChars_line_facts k
  refine goodL_preline d _ _ hk2 hk3 (by simp) ?_ ?_
  · intro c hc
    injection hc with hc
    subst hc
    refine ⟨by decide, by decide, by decide⟩
  · intro c hc
    rcases List.mem_singleton.mp hc with h
    subst h; decide

theorem goodL_emptyObj (d : Nat) : GoodL (d, "{}".data) := by
  refine goodL_mk (by decide) ?_ ?_
  · intro c hc
    injection hc with hc
    subst hc
    refine ⟨by decide, by decide, by decide⟩
  · intro c hc
    fin_cases hc <;> decide

theorem goodL_marker (d : Nat) : GoodL (d, ['-']) := by
  refine goodL_mk (by decide) ?_ ?_
  · intro c hc
    injection hc with hc
    subst hc
    refine ⟨by decide, by decide, by decide⟩
  · intro c hc
    rcases List.mem_singleton.mp hc with h
    subst h; decide

theorem goodL_itemScalar (d : Nat) (v : Value) (hv : isScalar v = true) :
    GoodL (d, '-' :: ' ' :: encScalar v) := by
  obtain ⟨hv1, hv2, hv3⟩ := encScalar_line_facts v hv
  refine goodL_mk (by simp) ?_ ?_
  · intro c hc
    injection hc with hc
    subst hc
    refine ⟨by decide, by decide, by decide⟩
  · intro c hc
    rcases List.mem_cons.mp hc with h | h
    · subst h; decide
    · rcases List.mem_cons.mp h with h | h
      · subst h; decide
      · exact hv3 c h

theorem sizeOf_tail_lt (k : String) (v : Value) (tl : List (String × Value)) :
    sizeOf tl < sizeOf ((k, v) :: tl) := by
  simp [List.cons.sizeOf_spec]

theorem sizeOf_objval_lt (k : String) (kvs : List (String × Value))
    (tl : List (String × Value)) :
    sizeOf kvs < sizeOf ((k, Value.obj kvs) :: tl) := by
  simp [List.cons.sizeOf_spec, Prod.mk.sizeOf_spec, Value.obj.sizeOf_spec]
  omega

theorem sizeOf_arrval_lt (k : String) (xs : List Value)
    (tl : List (String × Value)) :
    sizeOf xs < sizeOf ((k, Value.arr xs) :: tl) := by
  simp [List.cons.sizeOf_spec, Prod.mk.sizeOf_spec, Value.arr.sizeOf_spec]
  omega

theorem sizeOf_itail_lt (v : Value) (tl : List Value) :
    sizeOf tl < sizeOf (v :: tl) := by
  simp [List.cons.sizeOf_spec]

theorem sizeOf_iobj_lt (kvs : List (String × Value)) (tl : List Value) :
    sizeOf kvs < sizeOf (Value.obj kvs :: tl) := by
  simp [List.cons.sizeOf_spec, Value.obj.sizeOf_spec]
  omega

theorem sizeOf_iarr_lt (xs : List Value) (tl : List Value) :
    sizeOf xs < sizeOf (Value.arr xs :: tl) := by
  simp [List.cons.sizeOf_spec, Value.arr.sizeOf_spec]
  omega

theorem goodL_enc : ∀ N : Nat,
    (∀ (kvs : List (String × Value)) (d : Nat), sizeOf kvs ≤ N →
      ∀ l ∈ encEntries d kvs, GoodL l) ∧
    (∀ (xs : List Value) (rd : Nat), sizeOf xs ≤ N →
      ∀ l ∈ encItems rd xs, GoodL l) := by
  intro N
  induction N using Nat.strong_induction_on with
  | _ N IH =>
  constructor
  · intro kvs d hsz l hl
    match kvs with
    | [] => simp [encEntries] at hl
    | (k, v) :: tl =>
        have htl : ∀ l ∈ encEntries d tl, GoodL l := by
          have h1 : sizeOf tl < N := lt_of_lt_of_le (sizeOf_tail_lt k v tl) hsz
          exact (IH (sizeOf tl) h1).1 tl d (le_refl _)
        match v with
        | .null =>
            simp only [encEntries] at hl
            rcases List.mem_append.mp hl with h | h
            · rcases List.mem_singleton.mp h with h
              subst h
              exact goodL_entryScalar d k .null rfl
            · exact htl l h
        | .bool b =>
            simp only [encEntries] at hl
            rcases List.mem_append.mp hl with h | h
            · rcases List.mem_singleton.mp h with h
              subst h
              exact goodL_entryScalar d k (.bool b) rfl
            · exact htl l h
        | .num m e =>
            simp only [encEntries] at hl
            rcases List.mem_append.mp hl with h | h
            · rcases List.mem_singleton.mp h with h
              subst h
              exact goodL_entryScalar d k (.num m e) rfl
            · exact htl l h
        | .str s =>
            simp only [encEntries] at hl
            rcases List.mem_append.mp hl with h | h
            · rcases List.mem_singleton.mp h with h
              subst h
              exact goodL_entryScalar d k (.str s) rfl
            · exact htl l h
        | .obj kvs' =>
            simp only [encEntries] at hl
            rcases List.mem_append.mp hl with h | h
            · rcases List.mem_cons.mp h with h | h
              · subst h
                exact goodL_entryKey d k
              · by_cases hk : kvs'.isEmpty
                · rw [if_pos hk] at h
                  rcases List.mem_singleton.mp h with h
                  subst h
                  exact goodL_emptyObj (d + 1)
                · rw [if_neg hk] at h
                  have h1 : sizeOf kvs' < N :=
                    lt_of_lt_of_le (sizeOf_objval_lt k kvs' tl) hsz
                  exact (IH (sizeOf kvs') h1).1 kvs' (d + 1) (le_refl _) l h
            · exact htl l h
        | .arr xs =>
            cases htf : tabFields? xs with
            | some fs =>
                simp only [encEntries, htf] at hl
                rcases List.mem_append.mp hl with h | h
                · rcases List.mem_cons.mp h with h | h
                  · subst h
                    exact goodL_tabHeader d (keyChars k) xs.length fs
                      (keyChars_line_facts k).2.1 (keyChars_line_facts k).2.2
                  · exact goodL_encRows htf (d + 1) l h
                · exact htl l h
            | none =>
                simp only [encEntries, htf] at hl
                rcases List.mem_append.mp hl with h | h
                · rcases List.mem_cons.mp h with h | h
                  · subst h
                    exact goodL_listHeader d (keyChars k) xs.length
                      (keyChars_line_facts k).2.1 (keyChars_line_facts k).2.2
                  · have h1 : sizeOf xs < N :=
                      lt_of_lt_of_le (sizeOf_arrval_lt k xs tl) hsz
                    exact (IH (sizeOf xs) h1).2 xs (d + 1) (le_refl _) l h
                · exact htl l h
  · intro xs rd hsz l hl
    match xs with
    | [] => simp [encItems] at hl
    | v :: tl =>
        have htl : ∀ l ∈ encItems rd tl, GoodL l := by
          have h1 : sizeOf tl < N := lt_of_lt_of_le (sizeOf_itail_lt v tl) hsz
          exact (IH (sizeOf tl) h1).2 tl rd (le_refl _)
        match v with
        | .null =>
            simp only [encItems] at hl
            rcases List.mem_append.mp hl with h | h
            · rcases List.mem_singleton.mp h with h
              subst h
              exact goodL_itemScalar rd .null rfl
            · exact htl l h
        | .bool b =>
            simp only [encItems] at hl
            rcases List.mem_append.mp hl with h | h
            · rcases List.mem_singleton.mp h with h
              subst h
              exact goodL_itemScalar rd (.bool b) rfl
            · exact htl l h
        | .num m e =>
            simp only [encItems] at hl
            rcases List.mem_append.mp hl with h | h
            · rcases List.mem_singleton.mp h with h
              subst h
              exact goodL_itemScalar rd (.num m e) rfl
            · exact htl l h
        | .str s =>
            simp only [encItems] at hl
            rcases List.mem_append.mp hl with h | h
            · rcases List.mem_singleton.mp h with h
              subst h
              exact goodL_itemScalar rd (.str s) rfl
            · exact htl l h
        | .obj kvs' =>
            simp only [encItems] at hl
            rcases List.mem_append.mp hl with h | h
            · rcases List.mem_cons.mp h with h | h
              · subst h
                exact goodL_marker rd
              · by_cases hk : kvs'.isEmpty
                · rw [if_pos hk] at h
                  rcases List.mem_singleton.mp h with h
                  subst h
                  exact goodL_emptyObj (rd + 1)
                · rw [if_neg hk] at h
                  have h1 : sizeOf kvs' < N :=
                    lt_of_lt_of_le (sizeOf_iobj_lt kvs' tl) hsz
                  exact (IH (sizeOf kvs') h1).1 kvs' (rd + 1) (le_refl _) l h
            · exact htl l h
        | .arr xs' =>
            cases htf : tabFields? xs' with
            | some fs =>
                simp only [encItems, htf] at hl
                rcases List.mem_append.mp hl with h | h
                · rcases List.mem_cons.mp h with h | h
                  · subst h
                    exact goodL_marker rd
                  · rcases List.mem_cons.mp h with h | h
                    · subst h
                      exact goodL_tabHeader (rd + 1) [] xs'.length fs
                        (by intro c hc; simp at hc) (by intro c hc; simp at hc)
                    · exact goodL_encRows htf (rd + 2) l h
                · exact htl l h
            | none =>
                simp only [encItems, htf] at hl
                rcases List.mem_append.mp hl with h | h
                · rcases List.mem_cons.mp h with h | h
                  · subst h
                    exact goodL_marker rd
                  · rcases List.mem_cons.mp h with h | h
                    · subst h
                      exact goodL_listHeader (rd + 1) [] xs'.length
                        (by intro c hc; simp at hc) (by intro c hc; simp at hc)
                    · have h1 : sizeOf xs' < N :=
                        lt_of_lt_of_le (sizeOf_iarr_lt xs' tl) hsz
                      exact (IH (sizeOf xs') h1).2 xs' (rd + 2) (le_refl _) l h
                · exact htl l h

theorem goodL_encodeLines (v : Value) : ∀ l ∈ encodeLines v, GoodL l := by
  intro l hl
  match v with
  | .null =>
      rcases List.mem_singleton.mp hl with h
      subst h
      exact goodL_mk (by decide)
        (fun c hc => by injection hc with hc; subst hc; exact ⟨by decide, by decide, by decide⟩)
        (fun c hc => by fin_cases hc <;> decide)
  | .bool b =>
      rcases List.mem_singleton.mp hl with h
      subst h
      have := encScalar_line_facts (.bool b) rfl
      exact goodL_mk this.1 this.2.1 this.2.2
  | .num m e =>
      rcases List.mem_singleton.mp hl with h
      subst h
      have := encScalar_line_facts (.num m e) rfl
      exact goodL_mk this.1 this.2.1 this.2.2
  | .str s =>
      rcases List.mem_singleton.mp hl with h
      subst h
      have := encScalar_line_facts (.str s) rfl
      exact goodL_mk this.1 this.2.1 this.2.2
  | .obj kvs =>
      by_cases hk : kvs.isEmpty
      · rw [show encodeLines (.obj kvs) = [(0, "{}".data)] by simp [encodeLines, hk]] at hl
        rcases List.mem_singleton.mp hl with h
        subst h
        exact goodL_emptyObj 0
      · rw [show encodeLines (.obj kvs) = encEntries 0 kvs by simp [encodeLines, hk]] at hl
        exact (goodL_enc (sizeOf kvs)).1 kvs 0 (le_refl _) l hl
  | .arr xs =>
      cases htf : tabFields? xs with
      | some fs =>
          rw [show encodeLines (.arr xs)
              = (0, tabHeader [] xs.length fs) :: encRows 0 xs
            by simp [encodeLines, htf]] at hl
          rcases List.mem_cons.mp hl with h | h
          · subst h
            exact goodL_tabHeader 0 [] xs.length fs
              (by intro c hc; simp at hc) (by intro c hc; simp at hc)
          · exact goodL_encRows htf 0 l h
      | none =>
          rw [show encodeLines (.arr xs)
              = (0, listHeader [] xs.length) :: encItems 0 xs
            by simp [encodeLines, htf]] at hl
          rcases List.mem_cons.mp hl with h | h
          · subst h
            exact goodL_listHeader 0 [] xs.length
              (by intro c hc; simp at hc) (by intro c hc; simp at hc)
          · exact (goodL_enc (sizeOf xs)).2 xs 0 (le_refl _) l h

/-! ## Content-level parsing round-trips -/

theorem ebind_ok {α β : Type} (a : α) (g : α → Except DErr β) :
    (Bind.bind (Except.ok a) g) = g a := rfl

theorem quoted_val {v : Value} {s : List Char} (hv : isScalar v = true)
    (hq : encScalar v = quoteTok s) : Value.str (String.mk s) = v := by
  have h := scalarOfToken_encScalar v hv
  rw [hq] at h
  have hs : scalarOfToken (quoteTok s) = .ok (.str (String.mk s)) := by
    show scalarOfToken ('"' :: (escChars s ++ ['"'])) = _
    show (if ('"' : Char) = '"'
        then match parseQuoted ('"' :: (escChars s ++ ['"'])) with
          | some (t, r) =>
              if r = [] then Except.ok (Value.str (String.mk t))
              else Except.error DErr.malformed
          | none => Except.error DErr.malformed
        else classifyTok ('"' :: (escChars s ++ ['"'])))
      = Except.ok (Value.str (String.mk s))
    rw [if_pos rfl]
    have hp : parseQuoted ('"' :: (escChars s ++ ['"'])) = some (s, []) := by
      have := parseQuoted_quoteTok s []
      simpa [quoteTok] using this
    rw [hp]
    show (if ([] : List Char) = [] then Except.ok (Value.str (String.mk s))
      else Except.error DErr.malformed) = Except.ok (Value.str (String.mk s))
    rw [if_pos rfl]
  rw [hs] at h
  injection h with h

theorem classify_plain_val {v : Value} {c : Char} {tl : List Char}
    (hv : isScalar v = true) (he : encScalar v = c :: tl) (hc : c ≠ '"') :
    classifyTok (c :: tl) = .ok v := by
  have h := scalarOfToken_encScalar v hv
  rw [he] at h
  show classifyTok (c :: tl) = _
  rw [show classifyTok (c :: tl)
      = (if c = '"'
        then match parseQuoted (c :: tl) with
          | some (t, r) =>
              if r = [] then Except.ok (Value.str (String.mk t))
              else Except.error DErr.malformed
          | none => Except.error DErr.malformed
        else classifyTok (c :: tl)) by rw [if_neg hc]]
  exact h

theorem goodTok_cases (v : Value) (hv : isScalar v = true) :
    (∃ s, encScalar v = quoteTok s) ∨
    (∃ c tl, encScalar v = c :: tl ∧ c ≠ '"' ∧
      ∀ x ∈ encScalar v, x ≠ ',') := by
  rcases goodTok_encScalar v hv with ⟨s, hs⟩ | ⟨hne, hbad, hhead⟩
  · exact Or.inl ⟨s, hs⟩
  · right
    cases he : encScalar v with
    | nil => exact absurd he hne
    | cons c tl =>
        refine ⟨c, tl, rfl, ?_, ?_⟩
        · exact (hhead c (by rw [he]; rfl)).1
        · intro x hx
          have := hbad x (by rw [he]; exact hx)
          simp only [badChar, Bool.or_eq_false_iff] at this
          simpa using this.1.1.1.1.1

theorem splitRowF_enc : ∀ (kvs : List (String × Value)) (f : Nat),
    kvs ≠ [] → (∀ kv ∈ kvs, isScalar kv.2 = true) →
    (joinC (kvs.map (fun kv => encScalar kv.2))).length < f →
    splitRowF f (joinC (kvs.map (fun kv => encScalar kv.2))) = .ok (kvs.map Prod.snd) := by
  intro kvs
  induction kvs with
  | nil => intro f h _ _; exact absurd rfl h
  | cons kv tl ih =>
      intro f _ hsc hf
      have hv : isScalar kv.2 = true := hsc kv (List.mem_cons_self kv tl)
      cases f with
      | zero => omega
      | succ f =>
      cases tl with
      | nil =>
          show splitRowF (f + 1) (encScalar kv.2) = .ok [kv.2]
          rcases goodTok_cases kv.2 hv with ⟨s, hs⟩ | ⟨c, ctl, he, hcq, hnc⟩
          · rw [hs]
            show splitRowF (f + 1) ('"' :: (escChars s ++ ['"'])) = _
            show (if ('"' : Char) = '"'
                then match parseQuoted ('"' :: (escChars s ++ ['"'])) with
                  | some (t, r) =>
                      (match r with
                       | [] => Except.ok [Value.str (String.mk t)]
                       | c2 :: r2 =>
                           if c2 = ',' then do
                             let vs ← splitRowF f r2
                             Except.ok (Value.str (String.mk t) :: vs)
                           else Except.error DErr.malformed)
                  | none => Except.error DErr.malformed
                else
                  (do
                    let v ← classifyTok (scanTo commaStop ('"' :: (escChars s ++ ['"']))).1
                    match (scanTo commaStop ('"' :: (escChars s ++ ['"']))).2 with
                    | [] => Except.ok [v]
                    | _ :: r2 => do
                        let vs ← splitRowF f r2
                        Except.ok (v :: vs)))
              = Except.ok [kv.2]
            rw [if_pos rfl]
            have hp : parseQuoted ('"' :: (escChars s ++ ['"'])) = some (s, []) := by
              have := parseQuoted_quoteTok s []
              simpa [quoteTok] using this
            rw [hp]
            show Except.ok [Value.str (String.mk s)] = Except.ok [kv.2]
            rw [quoted_val hv hs]
          · rw [he]
            show (if c = '"'
                then match parseQuoted (c :: ctl) with
                  | some (t, r) =>
                      (match r with
                       | [] => Except.ok [Value.str (String.mk t)]
                       | c2 :: r2 =>
                           if c2 = ',' then do
                             let vs ← splitRowF f r2
                             Except.ok (Value.str (String.mk t) :: vs)
                           else Except.error DErr.malformed)
                  | none => Except.error DErr.malformed
                else
                  (do
                    let v ← classifyTok (scanTo commaStop (c :: ctl)).1
                    match (scanTo commaStop (c :: ctl)).2 with
                    | [] => Except.ok [v]
                    | _ :: r2 => do
                        let vs ← splitRowF f r2
                        Except.ok (v :: vs)))
              = Except.ok [kv.2]
            rw [if_neg hcq]
            have hsc2 : scanTo commaStop (c :: ctl) = (c :: ctl, []) := by
              have hmem : ∀ x ∈ c :: ctl, commaStop x = false := by
                intro x hx
                rw [← he] at hx
                have := hnc x hx
                simp [commaStop, this]
              have := scanTo_append commaStop (c :: ctl) [] hmem
                (by intro x hx; rw [List.head?_nil] at hx; exact Option.noConfusion hx)
              simpa using this
            rw [hsc2]
            rw [classify_plain_val hv he hcq, ebind_ok]
      | cons kv2 tl2 =>
          have hjoin : joinC ((kv :: kv2 :: tl2).map (fun kv => encScalar kv.2))
              = encScalar kv.2 ++ ','
                :: joinC ((kv2 :: tl2).map (fun kv => encScalar kv.2)) := rfl
          rw [hjoin]
          have hih : splitRowF f (joinC ((kv2 :: tl2).map (fun kv => encScalar kv.2)))
              = .ok ((kv2 :: tl2).map Prod.snd) := by
            refine ih f (by simp) (fun x hx => hsc x (List.mem_cons_of_mem kv hx)) ?_
            rw [hjoin] at hf
            simp only [List.length_append, List.length_cons] at hf
            omega
          rcases goodTok_cases kv.2 hv with ⟨s, hs⟩ | ⟨c, ctl, he, hcq, hnc⟩
          · rw [hs]
            show splitRowF (f + 1) ('"' :: (escChars s ++ ['"'])
              ++ ',' :: joinC ((kv2 :: tl2).map (fun kv => encScalar kv.2))) = _
            have hform : '"' :: (escChars s ++ ['"'])
                ++ ',' :: joinC ((kv2 :: tl2).map (fun kv => encScalar kv.2))
              = '"' :: (escChars s
                ++ '"' :: ',' :: joinC ((kv2 :: tl2).map (fun kv => encScalar kv.2))) := by
              simp
            rw [hform]
            show (if ('"' : Char) = '"'
                then match parseQuoted ('"' :: (escChars s
                    ++ '"' :: ',' :: joinC ((kv2 :: tl2).map (fun kv => encScalar kv.2)))) with
                  | some (t, r) =>
                      (match r with
                       | [] => Except.ok [Value.str (String.mk t)]
                       | c2 :: r2 =>
                           if c2 = ',' then do
                             let vs ← splitRowF f r2
                             Except.ok (Value.str (String.mk t) :: vs)
                           else Except.error DErr.malformed)
                  | none => Except.error DErr.malformed
                else
                  (do
                    let v ← classifyTok (scanTo commaStop ('"' :: (escChars s
                      ++ '"' :: ',' :: joinC ((kv2 :: tl2).map (fun kv => encScalar kv.2))))).1
                    match (scanTo commaStop ('"' :: (escChars s
                      ++ '"' :: ',' :: joinC ((kv2 :: tl2).map (fun kv => encScalar kv.2))))).2 with
                    | [] => Except.ok [v]
                    | _ :: r2 => do
                        let vs ← splitRowF f r2
                        Except.ok (v :: vs)))
              = Except.ok ((kv :: kv2 :: tl2).map Prod.snd)
            rw [if_pos rfl]
            have hp : parseQuoted ('"' :: (escChars s
                ++ '"' :: ',' :: joinC ((kv2 :: tl2).map (fun kv => encScalar kv.2))))
              = some (s, ',' :: joinC ((kv2 :: tl2).map (fun kv => encScalar kv.2))) := by
              have := parseQuoted_quoteTok s
                (',' :: joinC ((kv2 :: tl2).map (fun kv => encScalar kv.2)))
              simpa [quoteTok] using this
            rw [hp]
            show (if (',' : Char) = ','
                then (do
                  let vs ← splitRowF f (joinC ((kv2 :: tl2).map (fun kv => encScalar kv.2)))
                  Except.ok (Value.str (String.mk s) :: vs))
                else Except.error DErr.malformed)
              = Except.ok ((kv :: kv2 :: tl2).map Prod.snd)
            rw [if_pos rfl, hih, ebind_ok, quoted_val hv hs]
            rfl
          · rw [he]
            show (if c = '"'
                then match parseQuoted (c :: ctl
                    ++ ',' :: joinC ((kv2 :: tl2).map (fun kv => encScalar kv.2))) with
                  | some (t, r) =>
                      (match r with
                       | [] => Except.ok [Value.str (String.mk t)]
                       | c2 :: r2 =>
                           if c2 = ',' then do
                             let vs ← splitRowF f r2
                             Except.ok (Value.str (String.mk t) :: vs)
                           else Except.error DErr.malformed)
                  | none => Except.error DErr.malformed
                else
                  (do
                    let v ← classifyTok (scanTo commaStop (c :: ctl
                      ++ ',' :: joinC ((kv2 :: tl2).map (fun kv => encScalar kv.2)))).1
                    match (scanTo commaStop (c :: ctl
                      ++ ',' :: joinC ((kv2 :: tl2).map (fun kv => encScalar kv.2)))).2 with
                    | [] => Except.ok [v]
                    | _ :: r2 => do
                        let vs ← splitRowF f r2
                        Except.ok (v :: vs)))
              = Except.ok ((kv :: kv2 :: tl2).map Prod.snd)
            rw [if_neg hcq]
            have hsc2 : scanTo commaStop ((c :: ctl)
                ++ ',' :: joinC ((kv2 :: tl2).map (fun kv => encScalar kv.2)))
              = (c :: ctl, ',' :: joinC ((kv2 :: tl2).map (fun kv => encScalar kv.2))) := by
              refine scanTo_append commaStop _ _ ?_ ?_
              · intro x hx
                rw [← he] at hx
                have := hnc x hx
                simp [commaStop, this]
              · intro x hx
                injection hx with hx
                subst hx
                rfl
            rw [show (c :: ctl
                ++ ',' :: joinC ((kv2 :: tl2).map (fun kv => encScalar kv.2)))
              = ((c :: ctl)
                ++ ',' :: joinC ((kv2 :: tl2).map (fun kv => encScalar kv.2))) from rfl, hsc2]
            rw [classify_plain_val hv he hcq, ebind_ok]
            show (do
              let vs ← splitRowF f (joinC ((kv2 :: tl2).map (fun kv => encScalar kv.2)))
              Except.ok (kv.2 :: vs)) = Except.ok ((kv :: kv2 :: tl2).map Prod.snd)
            rw [hih, ebind_ok]
            rfl

theorem keyField_cases (k : String) :
    keyChars k = quoteTok k.data ∨
    (∃ c tl, keyChars k = c :: tl ∧ c ≠ '"' ∧ c ≠ '}' ∧
      ∀ x ∈ keyChars k, fieldStop x = false) := by
  by_cases hq : keyNeedsQuote k.data
  · left
    simp [keyChars, hq]
  · right
    rw [show keyChars k = k.data by simp [keyChars, hq]]
    cases hsd : k.data with
    | nil =>
        rw [hsd] at hq
        exact absurd (rfl : keyNeedsQuote [] = true) hq
    | cons c tl =>
        rw [hsd] at hq
        have hf := keyNeedsQuote_false_facts (by simpa using hq)
        obtain ⟨hh, ha, _⟩ := hf
        refine ⟨c, tl, rfl, ?_, ?_, ?_⟩
        · simp only [Bool.or_eq_false_iff] at hh
          simpa using hh.2
        · have := ha c (List.mem_cons_self c tl)
          simp only [Bool.or_eq_false_iff] at this
          simpa using this.1.1.1.2
        · intro x hx
          have := ha x hx
          simp only [Bool.or_eq_false_iff] at this
          have h1 : x ≠ ',' := by simpa using this.1.1.1.1.2
          have h2 : x ≠ '}' := by simpa using this.1.1.1.2
          simp [fieldStop, h1, h2]

theorem splitFieldsF_enc : ∀ (fs : List String) (f : Nat) (rest : List Char),
    fs ≠ [] → (fieldsChars fs ++ '}' :: rest).length < f →
    splitFieldsF f (fieldsChars fs ++ '}' :: rest) = .ok (fs, rest) := by
  intro fs
  induction fs with
  | nil => intro f rest h _; exact absurd rfl h
  | cons k tl ih =>
      intro f rest _ hf
      cases f with
      | zero => omega
      | succ f =>
      have hkd_of_plain : ∀ (c : Char) ctl, keyChars k = c :: ctl → c ≠ '"' →
          keyChars k = k.data := by
        intro c ctl he hcq
        by_cases hq3 : keyNeedsQuote k.data
        · rw [show keyChars k = quoteTok k.data by simp [keyChars, hq3]] at he
          have : c = '"' := by
            have h0 : quoteTok k.data = c :: ctl := he
            injection h0 with h1 _
            exact h1.symm
          exact absurd this hcq
        · simp [keyChars, hq3]
      cases tl with
      | nil =>
          show splitFieldsF (f + 1) (keyChars k ++ '}' :: rest) = .ok ([k], rest)
          rcases keyField_cases k with hq | ⟨c, ctl, he, hcq, hcb, hstop⟩
          · rw [hq]
            have hform : quoteTok k.data ++ '}' :: rest
                = '"' :: (escChars k.data ++ '"' :: '}' :: rest) := by
              simp [quoteTok]
            rw [hform]
            simp only [splitFieldsF]
            rw [if_pos trivial]
            have hp : parseQuoted ('"' :: (escChars k.data ++ '"' :: '}' :: rest))
                = some (k.data, '}' :: rest) := by
              have := parseQuoted_quoteTok k.data ('}' :: rest)
              simpa [quoteTok] using this
            rw [hp]
            show (if ('}' : Char) = ',' then (do
                let p ← splitFieldsF f rest
                Except.ok (String.mk k.data :: p.1, p.2))
              else if ('}' : Char) = '}' then Except.ok ([String.mk k.data], rest)
              else Except.error DErr.malformed) = Except.ok ([k], rest)
            rw [if_neg (by decide), if_pos rfl, strMk_data]
          · rw [he]
            show splitFieldsF (f + 1) (c :: (ctl ++ '}' :: rest)) = .ok ([k], rest)
            simp only [splitFieldsF]
            rw [if_neg hcb, if_neg hcq]
            have hsc : scanTo fieldStop ((c :: ctl) ++ '}' :: rest)
                = (c :: ctl, '}' :: rest) := by
              refine scanTo_append fieldStop _ _ ?_ ?_
              · intro x hx
                rw [← he] at hx
                exact hstop x hx
              · intro x hx
                injection hx with hx
                subst hx
                rfl
            rw [show (c :: (ctl ++ '}' :: rest)) = ((c :: ctl) ++ '}' :: rest) from rfl, hsc]
            show (if ('}' : Char) = ',' then (do
                let q ← splitFieldsF f rest
                Except.ok (String.mk (c :: ctl) :: q.1, q.2))
              else Except.ok ([String.mk (c :: ctl)], rest)) = Except.ok ([k], rest)
            rw [if_neg (by decide), ← he, hkd_of_plain c ctl he hcq, strMk_data]
      | cons k2 tl2 =>
          have hjoin : fieldsChars (k :: k2 :: tl2)
              = keyChars k ++ ',' :: fieldsChars (k2 :: tl2) := rfl
          rw [hjoin]
          have hlen : (fieldsChars (k2 :: tl2) ++ '}' :: rest).length < f := by
            rw [hjoin] at hf
            simp only [List.length_append, List.length_cons] at hf ⊢
            omega
          have hih := ih f rest (by simp) hlen
          have hform : (keyChars k ++ ',' :: fieldsChars (k2 :: tl2)) ++ '}' :: rest
              = keyChars k ++ ',' :: (fieldsChars (k2 :: tl2) ++ '}' :: rest) := by
            simp
          rw [hform]
          rcases keyField_cases k with hq | ⟨c, ctl, he, hcq, hcb, hstop⟩
          · rw [hq]
            have hform2 : quoteTok k.data ++ ',' :: (fieldsChars (k2 :: tl2) ++ '}' :: rest)
                = '"' :: (escChars k.data ++ '"' :: ','
                  :: (fieldsChars (k2 :: tl2) ++ '}' :: rest)) := by
              simp [quoteTok]
            rw [hform2]
            simp only [splitFieldsF]
            rw [if_pos trivial]
            have hp : parseQuoted ('"' :: (escChars k.data ++ '"' :: ','
                :: (fieldsChars (k2 :: tl2) ++ '}' :: rest)))
              = some (k.data, ',' :: (fieldsChars (k2 :: tl2) ++ '}' :: rest)) := by
              have := parseQuoted_quoteTok k.data
                (',' :: (fieldsChars (k2 :: tl2) ++ '}' :: rest))
              simpa [quoteTok] using this
            rw [hp]
            show (if (',' : Char) = ',' then (do
                let p ← splitFieldsF f (fieldsChars (k2 :: tl2) ++ '}' :: rest)
                Except.ok (String.mk k.data :: p.1, p.2))
              else if (',' : Char) = '}' then
                Except.ok ([String.mk k.data], fieldsChars (k2 :: tl2) ++ '}' :: rest)
              else Except.error DErr.malformed) = Except.ok (k :: k2 :: tl2, rest)
            rw [if_pos rfl, hih, ebind_ok, strMk_data]
          · rw [he]
            show splitFieldsF (f + 1)
              (c :: (ctl ++ ',' :: (fieldsChars (k2 :: tl2) ++ '}' :: rest)))
              = .ok (k :: k2 :: tl2, rest)
            simp only [splitFieldsF]
            rw [if_neg hcb, if_neg hcq]
            have hsc : scanTo fieldStop ((c :: ctl)
                ++ ',' :: (fieldsChars (k2 :: tl2) ++ '}' :: rest))
              = (c :: ctl, ',' :: (fieldsChars (k2 :: tl2) ++ '}' :: rest)) := by
              refine scanTo_append fieldStop _ _ ?_ ?_
              · intro x hx
                rw [← he] at hx
                exact hstop x hx
              · intro x hx
                injection hx with hx
                subst hx
                rfl
            rw [show (c :: (ctl ++ ',' :: (fieldsChars (k2 :: tl2) ++ '}' :: rest)))
              = ((c :: ctl) ++ ',' :: (fieldsChars (k2 :: tl2) ++ '}' :: rest)) from rfl, hsc]
            show (if (',' : Char) = ',' then (do
                let q ← splitFieldsF f (fieldsChars (k2 :: tl2) ++ '}' :: rest)
                Except.ok (String.mk (c :: ctl) :: q.1, q.2))
              else Except.ok ([String.mk (c :: ctl)],
                fieldsChars (k2 :: tl2) ++ '}' :: rest)) = Except.ok (k :: k2 :: tl2, rest)
            rw [if_pos rfl, hih, ebind_ok, ← he, hkd_of_plain c ctl he hcq, strMk_data]

theorem parseHeader_list (n : Nat) :
    parseHeader (natChars n ++ [']', ':']) = .ok (n, none) := by
  have htd : takeDigits (natChars n ++ [']', ':']) = (natChars n, [']', ':']) :=
    takeDigits_append _ _ (fun c hc => natChars_all_digits c hc)
      (fun c hc => by injection hc with hc; subst hc; rfl)
  simp only [parseHeader, htd]
  rw [if_neg (natChars_ne_nil n)]
  rw [if_pos trivial, if_pos trivial, if_pos trivial, parseNat_natChars]

theorem parseHeader_tab (n : Nat) (fs : List String) (hfs : fs ≠ []) :
    parseHeader (natChars n
      ++ (']' :: ('{' :: (fieldsChars fs ++ ['}', ':'])))) = .ok (n, some fs) := by
  have htd : takeDigits (natChars n ++ (']' :: ('{' :: (fieldsChars fs ++ ['}', ':']))))
      = (natChars n, ']' :: ('{' :: (fieldsChars fs ++ ['}', ':']))) :=
    takeDigits_append _ _ (fun c hc => natChars_all_digits c hc)
      (fun c hc => by injection hc with hc; subst hc; rfl)
  simp only [parseHeader, htd]
  rw [if_neg (natChars_ne_nil n)]
  have hsf : splitFields (fieldsChars fs ++ '}' :: [':']) = Except.ok (fs, [':']) :=
    splitFieldsF_enc fs _ [':'] hfs (by omega)
  rw [if_pos trivial, if_pos trivial, hsf, ebind_ok, if_pos rfl, parseNat_natChars]
  rw [if_neg (by decide)]

theorem zip_fst_snd {α β : Type} : ∀ (l : List (α × β)),
    (l.map Prod.fst).zip (l.map Prod.snd) = l := by
  intro l
  induction l with
  | nil => rfl
  | cons p tl ih =>
      show (p.1, p.2) :: (tl.map Prod.fst).zip (tl.map Prod.snd) = p :: tl
      rw [ih]

theorem pRows_enc : ∀ (xs : List Value) (rd : Nat) (fs : List String)
    (rest : List LineE) (f : Nat),
    fs ≠ [] →
    (∀ x ∈ xs, ∃ kvs, x = .obj kvs ∧ kvs.map Prod.fst = fs ∧
      ∀ kv ∈ kvs, isScalar kv.2 = true) →
    (encRows rd xs ++ rest).length < f →
    pRows f rd fs xs.length (encRows rd xs ++ rest) = .ok (xs, rest) := by
  intro xs
  induction xs with
  | nil =>
      intro rd fs rest f _ _ hf
      cases f with
      | zero => simp at hf
      | succ f => rfl
  | cons x tl ih =>
      intro rd fs rest f hfs hall hf
      cases f with
      | zero => simp at hf
      | succ f =>
      obtain ⟨kvs, hx, hkeys, hsc⟩ := hall x (List.mem_cons_self x tl)
      have hkne : kvs ≠ [] := by
        intro h
        subst h
        simp at hkeys
        exact hfs hkeys
      show pRows (f + 1) rd fs (tl.length + 1)
        ((rd, rowChars x) :: (encRows rd tl ++ rest)) = .ok (x :: tl, rest)
      simp only [pRows]
      rw [if_pos trivial]
      have hsr : splitRow (rowChars x) = .ok (kvs.map Prod.snd) := by
        subst hx
        show splitRowF ((rowChars (Value.obj kvs)).length + 1) (rowChars (Value.obj kvs))
          = .ok (kvs.map Prod.snd)
        show splitRowF ((joinC (kvs.map (fun kv => encScalar kv.2))).length + 1)
          (joinC (kvs.map (fun kv => encScalar kv.2))) = .ok (kvs.map Prod.snd)
        exact splitRowF_enc kvs _ hkne hsc (by omega)
      rw [hsr, ebind_ok]
      have hlen : (kvs.map Prod.snd).length = fs.length := by
        rw [← hkeys]
        simp
      rw [if_pos hlen]
      have hih : pRows f rd fs tl.length (encRows rd tl ++ rest) = .ok (tl, rest) := by
        refine ih rd fs rest f hfs (fun y hy => hall y (List.mem_cons_of_mem x hy)) ?_
        have : ((rd, rowChars x) :: (encRows rd tl ++ rest)).length < f + 1 := hf
        simp only [List.length_cons] at this
        omega
      rw [hih, ebind_ok]
      rw [← hkeys, zip_fst_snd, ← hx]

theorem keyChars_head_not (k : String) :
    ∀ h, (keyChars k).head? = some h → h ≠ '[' ∧ h ≠ ' ' := by
  intro h hh
  rcases goodKey_keyChars k with ⟨s, hs⟩ | ⟨hne, hmem, hhead, _⟩
  · rw [hs] at hh
    have : h = '"' := by
      have h0 : (quoteTok s).head? = some '"' := rfl
      rw [h0] at hh
      injection hh with hh
      exact hh.symm
    subst this
    exact ⟨by decide, by decide⟩
  · cases he : keyChars k with
    | nil => exact absurd he hne
    | cons c tll =>
        rw [he] at hh
        injection hh with hh
        subst hh
        have hm := hmem c (by rw [he]; exact List.mem_cons_self c tll)
        have hh2 := hhead c (by rw [he]; rfl)
        refine ⟨?_, hh2.2.1⟩
        have := hm.1
        simp only [keyStop, Bool.or_eq_false_iff] at this
        simpa using this.2

theorem entry_line_shape (k : String) (v : Value) (tl : List (String × Value)) (d : Nat) :
    ∃ c L, encEntries d ((k, v) :: tl) = (d, c) :: L ∧ (':' ∈ c) ∧
      (∀ hc, c.head? = some hc → hc ≠ '[') ∧ c ≠ "{}".data := by
  have hkne := (keyChars_line_facts k).1
  have hfacts : ∀ (suffix : List Char), ':' ∈ suffix →
      (':' ∈ keyChars k ++ suffix) ∧
        (∀ hc, (keyChars k ++ suffix).head? = some hc → hc ≠ '[') ∧
        (keyChars k ++ suffix) ≠ "{}".data := by
    intro suffix hcol
    refine ⟨List.mem_append_right _ hcol, ?_, ?_⟩
    · intro hc hhc
      rw [head?_append_left _ _ hkne] at hhc
      exact (keyChars_head_not k hc hhc).1
    · intro heq
      have : ':' ∈ "{}".data := by
        rw [← heq]
        exact List.mem_append_right _ hcol
      simp at this
  match v with
  | .null =>
      exact ⟨keyChars k ++ ':' :: ' ' :: encScalar .null, encEntries d tl,
        by simp [encEntries], hfacts (':' :: ' ' :: encScalar .null) (List.mem_cons_self _ _)⟩
  | .bool b =>
      exact ⟨keyChars k ++ ':' :: ' ' :: encScalar (.bool b), encEntries d tl,
        by simp [encEntries], hfacts (':' :: ' ' :: encScalar (.bool b)) (List.mem_cons_self _ _)⟩
  | .num m e =>
      exact ⟨keyChars k ++ ':' :: ' ' :: encScalar (.num m e), encEntries d tl,
        by simp [encEntries], hfacts (':' :: ' ' :: encScalar (.num m e)) (List.mem_cons_self _ _)⟩
  | .str s =>
      exact ⟨keyChars k ++ ':' :: ' ' :: encScalar (.str s), encEntries d tl,
        by simp [encEntries], hfacts (':' :: ' ' :: encScalar (.str s)) (List.mem_cons_self _ _)⟩
  | .obj kvs =>
      exact ⟨keyChars k ++ [':'],
        (if kvs.isEmpty then [(d + 1, "{}".data)] else encEntries (d + 1) kvs)
          ++ encEntries d tl,
        by simp [encEntries], hfacts [':'] (List.mem_singleton.mpr rfl)⟩
  | .arr xs =>
      cases htf : tabFields? xs with
      | some fs =>
          refine ⟨tabHeader (keyChars k) xs.length fs,
            encRows (d + 1) xs ++ encEntries d tl, by simp [encEntries, htf], ?_⟩
          rw [tabHeader_eq]
          refine hfacts _ ?_
          simp
      | none =>
          refine ⟨listHeader (keyChars k) xs.length,
            encItems (d + 1) xs ++ encEntries d tl, by simp [encEntries, htf], ?_⟩
          rw [listHeader_eq]
          refine hfacts _ ?_
          simp

theorem pEntries_step_scalar {k : String} {v : Value} (hv : isScalar v = true)
    (d f : Nat) (cont : List LineE) (res : List (String × Value) × List LineE)
    (hcont : pEntries f d cont = .ok res) :
    pEntries (f + 1) d ((d, keyChars k ++ ':' :: ' ' :: encScalar v) :: cont)
      = .ok ((k, v) :: res.1, res.2) := by
  simp only [pEntries]
  rw [if_neg (lt_irrefl d), if_neg (lt_irrefl d)]
  have hkey : parseKey (keyChars k ++ ':' :: ' ' :: encScalar v)
      = .ok (k, ':' :: ' ' :: encScalar v) :=
    parseKey_keyChars k _ (by intro c hc; injection hc with hc; subst hc; rfl)
  rw [hkey, ebind_ok]
  show (if (':' : Char) = ':' then
      (if (' ' : Char) = ' ' then do
        let v' ← scalarOfToken (encScalar v)
        let p ← pEntries f d cont
        Except.ok ((k, v') :: p.1, p.2)
      else Except.error DErr.malformed)
    else if (':' : Char) = '[' then _ else Except.error DErr.malformed)
    = Except.ok ((k, v) :: res.1, res.2)
  rw [if_pos rfl, if_pos rfl, scalarOfToken_encScalar v hv, ebind_ok, hcont, ebind_ok]

theorem pEntries_step_objE {k : String} (d f : Nat) (cont : List LineE)
    (res : List (String × Value) × List LineE)
    (hcont : pEntries f d cont = .ok res) :
    pEntries (f + 1) d ((d, keyChars k ++ [':']) :: (d + 1, "{}".data) :: cont)
      = .ok ((k, .obj []) :: res.1, res.2) := by
  simp only [pEntries]
  rw [if_neg (lt_irrefl d), if_neg (lt_irrefl d)]
  have hkey : parseKey (keyChars k ++ [':']) = .ok (k, [':']) :=
    parseKey_keyChars k _ (by intro c hc; injection hc with hc; subst hc; rfl)
  rw [hkey, ebind_ok]
  show (if True ∧ True then (do
      let p ← pEntries f d cont
      Except.ok ((k, Value.obj []) :: p.1, p.2))
    else if d + 1 < d + 1 then Except.error DErr.unexpectedEnd
    else do
      let q ← pEntries f (d + 1) ((d + 1, ['{', '}']) :: cont)
      let p ← pEntries f d q.2
      Except.ok ((k, Value.obj q.1) :: p.1, p.2))
    = Except.ok ((k, Value.obj []) :: res.1, res.2)
  rw [if_pos ⟨trivial, trivial⟩, hcont, ebind_ok]

theorem pEntries_step_obj {k : String} {kvs' : List (String × Value)}
    (k₁ : String) (v₁ : Value) (tl₁ : List (String × Value))
    (hkvs : kvs' = (k₁, v₁) :: tl₁)
    (d f : Nat) (cont : List LineE) (res : List (String × Value) × List LineE)
    (hchild : pEntries f (d + 1) (encEntries (d + 1) kvs' ++ cont) = .ok (kvs', cont))
    (hcont : pEntries f d cont = .ok res) :
    pEntries (f + 1) d ((d, keyChars k ++ [':']) :: (encEntries (d + 1) kvs' ++ cont))
      = .ok ((k, .obj kvs') :: res.1, res.2) := by
  obtain ⟨c₁, L, hshape, _, _, hnb⟩ := entry_line_shape k₁ v₁ tl₁ (d + 1)
  have hshape' : encEntries (d + 1) kvs' = (d + 1, c₁) :: L := by
    rw [hkvs]; exact hshape
  rw [hshape']
  show pEntries (f + 1) d ((d, keyChars k ++ [':']) :: ((d + 1, c₁) :: (L ++ cont)))
    = Except.ok ((k, Value.obj kvs') :: res.1, res.2)
  simp only [pEntries]
  rw [if_neg (lt_irrefl d), if_neg (lt_irrefl d)]
  have hkey : parseKey (keyChars k ++ [':']) = .ok (k, [':']) :=
    parseKey_keyChars k _ (by intro c hc; injection hc with hc; subst hc; rfl)
  rw [hkey, ebind_ok]
  show (if True ∧ c₁ = ['{', '}'] then (do
      let p ← pEntries f d (L ++ cont)
      Except.ok ((k, Value.obj []) :: p.1, p.2))
    else if d + 1 < d + 1 then Except.error DErr.unexpectedEnd
    else do
      let q ← pEntries f (d + 1) ((d + 1, c₁) :: (L ++ cont))
      let p ← pEntries f d q.2
      Except.ok ((k, Value.obj q.1) :: p.1, p.2))
    = Except.ok ((k, Value.obj kvs') :: res.1, res.2)
  rw [if_neg (by
      intro hand
      exact hnb (by rw [hand.2])),
    if_neg (lt_irrefl (d + 1))]
  have hcons : (d + 1, c₁) :: (L ++ cont) = encEntries (d + 1) kvs' ++ cont := by
    rw [hshape']
    rfl
  rw [hcons, hchild, ebind_ok, hcont, ebind_ok]

theorem parseKey_tabHeader (k : String) (n : Nat) (fs : List String) :
    parseKey (tabHeader (keyChars k) n fs)
      = .ok (k, '[' :: (natChars n ++ (']' :: ('{' :: (fieldsChars fs ++ ['}', ':']))))) := by
  rw [tabHeader_eq]
  exact parseKey_keyChars k _ (by intro c hc; injection hc with hc; subst hc; rfl)

theorem parseKey_listHeader (k : String) (n : Nat) :
    parseKey (listHeader (keyChars k) n)
      = .ok (k, '[' :: (natChars n ++ [']', ':'])) := by
  rw [listHeader_eq]
  exact parseKey_keyChars k _ (by intro c hc; injection hc with hc; subst hc; rfl)

theorem pEntries_step_arrTab {k : String} {xs : List Value} {fs : List String}
    (hfs : fs ≠ []) (d f : Nat) (cont : List LineE)
    (res : List (String × Value) × List LineE)
    (hrows : pRows f (d + 1) fs xs.length (encRows (d + 1) xs ++ cont) = .ok (xs, cont))
    (hcont : pEntries f d cont = .ok res) :
    pEntries (f + 1) d
      ((d, tabHeader (keyChars k) xs.length fs) :: (encRows (d + 1) xs ++ cont))
      = .ok ((k, .arr xs) :: res.1, res.2) := by
  simp only [pEntries]
  rw [if_neg (lt_irrefl d), if_neg (lt_irrefl d), parseKey_tabHeader, ebind_ok]
  show (if ('[' : Char) = ':' then _
    else if ('[' : Char) = '[' then (do
      let hd ← parseHeader (natChars xs.length
        ++ (']' :: ('{' :: (fieldsChars fs ++ ['}', ':']))))
      match hd.2 with
      | some fs' => do
          let rows ← pRows f (d + 1) fs' hd.1 (encRows (d + 1) xs ++ cont)
          let p ← pEntries f d rows.2
          Except.ok ((k, Value.arr rows.1) :: p.1, p.2)
      | none => do
          let its ← pItems f (d + 1) hd.1 (encRows (d + 1) xs ++ cont)
          let p ← pEntries f d its.2
          Except.ok ((k, Value.arr its.1) :: p.1, p.2))
    else Except.error DErr.malformed)
    = Except.ok ((k, Value.arr xs) :: res.1, res.2)
  rw [if_neg (by decide), if_pos rfl, parseHeader_tab xs.length fs hfs, ebind_ok]
  show (do
    let rows ← pRows f (d + 1) fs xs.length (encRows (d + 1) xs ++ cont)
    let p ← pEntries f d rows.2
    Except.ok ((k, Value.arr rows.1) :: p.1, p.2))
    = Except.ok ((k, Value.arr xs) :: res.1, res.2)
  rw [hrows, ebind_ok, hcont, ebind_ok]

theorem pEntries_step_arrList {k : String} {xs : List Value}
    (d f : Nat) (cont : List LineE)
    (res : List (String × Value) × List LineE)
    (hits : pItems f (d + 1) xs.length (encItems (d + 1) xs ++ cont) = .ok (xs, cont))
    (hcont : pEntries f d cont = .ok res) :
    pEntries (f + 1) d
      ((d, listHeader (keyChars k) xs.length) :: (encItems (d + 1) xs ++ cont))
      = .ok ((k, .arr xs) :: res.1, res.2) := by
  simp only [pEntries]
  rw [if_neg (lt_irrefl d), if_neg (lt_irrefl d), parseKey_listHeader, ebind_ok]
  show (if ('[' : Char) = ':' then _
    else if ('[' : Char) = '[' then (do
      let hd ← parseHeader (natChars xs.length ++ [']', ':'])
      match hd.2 with
      | some fs' => do
          let rows ← pRows f (d + 1) fs' hd.1 (encItems (d + 1) xs ++ cont)
          let p ← pEntries f d rows.2
          Except.ok ((k, Value.arr rows.1) :: p.1, p.2)
      | none => do
          let its ← pItems f (d + 1) hd.1 (encItems (d + 1) xs ++ cont)
          let p ← pEntries f d its.2
          Except.ok ((k, Value.arr its.1) :: p.1, p.2))
    else Except.error DErr.malformed)
    = Except.ok ((k, Value.arr xs) :: res.1, res.2)
  rw [if_neg (by decide), if_pos rfl, parseHeader_list xs.length, ebind_ok]
  show (do
    let its ← pItems f (d + 1) xs.length (encItems (d + 1) xs ++ cont)
    let p ← pEntries f d its.2
    Except.ok ((k, Value.arr its.1) :: p.1, p.2))
    = Except.ok ((k, Value.arr xs) :: res.1, res.2)
  rw [hits, ebind_ok, hcont, ebind_ok]

theorem pItems_step_scalar {v : Value} (hv : isScalar v = true)
    (rd n f : Nat) (cont : List LineE) (res : List Value × List LineE)
    (hcont : pItems f rd n cont = .ok res) :
    pItems (f + 1) rd (n + 1) ((rd, '-' :: ' ' :: encScalar v) :: cont)
      = .ok (v :: res.1, res.2) := by
  simp only [pItems]
  rw [if_pos trivial, if_neg (by simp)]
  show (if True then
      (if True then do
        let v' ← scalarOfToken (encScalar v)
        let p ← pItems f rd n cont
        Except.ok (v' :: p.1, p.2)
      else Except.error DErr.malformed)
    else Except.error DErr.malformed)
    = Except.ok (v :: res.1, res.2)
  rw [if_pos trivial, if_pos trivial, scalarOfToken_encScalar v hv, ebind_ok, hcont,
    ebind_ok]

theorem pItems_step_objE (rd n f : Nat) (cont : List LineE)
    (res : List Value × List LineE)
    (hcont : pItems f rd n cont = .ok res) :
    pItems (f + 1) rd (n + 1) ((rd, ['-']) :: (rd + 1, "{}".data) :: cont)
      = .ok (.obj [] :: res.1, res.2) := by
  simp only [pItems]
  rw [if_pos trivial, if_pos trivial, if_pos trivial,
    if_neg (show ¬(('{' : Char) = '[') by decide), if_pos trivial, hcont, ebind_ok]

theorem pItems_step_obj {kvs' : List (String × Value)}
    (k₁ : String) (v₁ : Value) (tl₁ : List (String × Value))
    (hkvs : kvs' = (k₁, v₁) :: tl₁)
    (rd n f : Nat) (cont : List LineE) (res : List Value × List LineE)
    (hchild : pEntries f (rd + 1) (encEntries (rd + 1) kvs' ++ cont) = .ok (kvs', cont))
    (hcont : pItems f rd n cont = .ok res) :
    pItems (f + 1) rd (n + 1) ((rd, ['-']) :: (encEntries (rd + 1) kvs' ++ cont))
      = .ok (.obj kvs' :: res.1, res.2) := by
  obtain ⟨c₁, L, hshape, hcol, hhc, hnb⟩ := entry_line_shape k₁ v₁ tl₁ (rd + 1)
  have hshape' : encEntries (rd + 1) kvs' = (rd + 1, c₁) :: L := by
    rw [hkvs]; exact hshape
  rw [hshape']
  show pItems (f + 1) rd (n + 1) ((rd, ['-']) :: ((rd + 1, c₁) :: (L ++ cont)))
    = Except.ok (Value.obj kvs' :: res.1, res.2)
  cases hcc : c₁ with
  | nil =>
      rw [hcc] at hcol
      simp at hcol
  | cons hc hrest =>
      simp only [pItems]
      rw [if_pos trivial, if_pos trivial, if_pos trivial]
      have hhc2 : hc ≠ '[' := hhc hc (by rw [hcc]; rfl)
      show (if hc = '[' then _
        else if hc :: hrest = ['{', '}'] then (do
          let p ← pItems f rd n (L ++ cont)
          Except.ok (Value.obj [] :: p.1, p.2))
        else do
          let q ← pEntries f (rd + 1) ((rd + 1, hc :: hrest) :: (L ++ cont))
          let p ← pItems f rd n q.2
          Except.ok (Value.obj q.1 :: p.1, p.2))
        = Except.ok (Value.obj kvs' :: res.1, res.2)
      rw [if_neg hhc2, if_neg (by
        intro h
        exact hnb (by rw [hcc, h]))]
      have hcons : (rd + 1, hc :: hrest) :: (L ++ cont)
          = encEntries (rd + 1) kvs' ++ cont := by
        rw [hshape', hcc]
        rfl
      rw [hcons, hchild, ebind_ok, hcont, ebind_ok]

theorem pItems_step_arrTab {xs : List Value} {fs : List String}
    (hfs : fs ≠ []) (rd n f : Nat) (cont : List LineE)
    (res : List Value × List LineE)
    (hrows : pRows f (rd + 2) fs xs.length (encRows (rd + 2) xs ++ cont) = .ok (xs, cont))
    (hcont : pItems f rd n cont = .ok res) :
    pItems (f + 1) rd (n + 1)
      ((rd, ['-']) :: (rd + 1, tabHeader [] xs.length fs)
        :: (encRows (rd + 2) xs ++ cont))
      = .ok (.arr xs :: res.1, res.2) := by
  have hth : tabHeader [] xs.length fs
      = '[' :: (natChars xs.length ++ (']' :: ('{' :: (fieldsChars fs ++ ['}', ':'])))) := by
    rw [tabHeader_eq]; rfl
  rw [hth]
  simp only [pItems]
  rw [if_pos trivial, if_pos trivial, if_pos trivial, if_pos trivial,
    parseHeader_tab xs.length fs hfs, ebind_ok]
  show (do
    let rows ← pRows f (rd + 2) fs xs.length (encRows (rd + 2) xs ++ cont)
    let p ← pItems f rd n rows.2
    Except.ok (Value.arr rows.1 :: p.1, p.2))
    = Except.ok (Value.arr xs :: res.1, res.2)
  rw [hrows, ebind_ok, hcont, ebind_ok]

theorem pItems_step_arrList {xs : List Value}
    (rd n f : Nat) (cont : List LineE)
    (res : List Value × List LineE)
    (hits : pItems f (rd + 2) xs.length (encItems (rd + 2) xs ++ cont) = .ok (xs, cont))
    (hcont : pItems f rd n cont = .ok res) :
    pItems (f + 1) rd (n + 1)
      ((rd, ['-']) :: (rd + 1, listHeader [] xs.length)
        :: (encItems (rd + 2) xs ++ cont))
      = .ok (.arr xs :: res.1, res.2) := by
  have hlh : listHeader [] xs.length = '[' :: (natChars xs.length ++ [']', ':']) := by
    rw [listHeader_eq]; rfl
  rw [hlh]
  simp only [pItems]
  rw [if_pos trivial, if_pos trivial, if_pos trivial, if_pos trivial,
    parseHeader_list xs.length, ebind_ok]
  show (do
    let its ← pItems f (rd + 2) xs.length (encItems (rd + 2) xs ++ cont)
    let p ← pItems f rd n its.2
    Except.ok (Value.arr its.1 :: p.1, p.2))
    = Except.ok (Value.arr xs :: res.1, res.2)
  rw [hits, ebind_ok, hcont, ebind_ok]

theorem pEntries_stop (f d : Nat) (rest : List LineE) (hf : 0 < f)
    (hrest : ∀ l, rest.head? = some l → l.1 < d) :
    pEntries f d rest = .ok ([], rest) := by
  match f with
  | 0 => exact absurd hf (by omega)
  | f' + 1 =>
      match rest with
      | [] => rfl
      | (d', c) :: tl =>
          have hd : d' < d := hrest (d', c) rfl
          simp only [pEntries]
          rw [if_pos hd]

theorem pItems_zero (f rd : Nat) (rest : List LineE) (hf : 0 < f) :
    pItems f rd 0 rest = .ok ([], rest) := by
  match f with
  | 0 => exact absurd hf (by omega)
  | f' + 1 => rfl

theorem entCont_head (d : Nat) (tl : List (String × Value)) (rest : List LineE)
    (hrest : ∀ l, rest.head? = some l → l.1 < d) :
    ∀ l, (encEntries d tl ++ rest).head? = some l → l.1 ≤ d := by
  match tl with
  | [] =>
      intro l hl
      rw [show encEntries d ([] : List (String × Value)) = [] from by simp [encEntries],
        List.nil_append] at hl
      exact le_of_lt (hrest l hl)
  | (k₁, v₁) :: tl₁ =>
      obtain ⟨c, L, hsh, _, _, _⟩ := entry_line_shape k₁ v₁ tl₁ d
      intro l hl
      rw [hsh, List.cons_append, List.head?_cons] at hl
      injection hl with hl
      rw [← hl]

theorem item_line_head (rd : Nat) (v : Value) (tl : List Value) :
    ∃ c L, encItems rd (v :: tl) = (rd, c) :: L := by
  match v with
  | .null =>
      exact ⟨'-' :: ' ' :: encScalar .null, encItems rd tl, by simp [encItems]⟩
  | .bool b =>
      exact ⟨'-' :: ' ' :: encScalar (.bool b), encItems rd tl, by simp [encItems]⟩
  | .num m e =>
      exact ⟨'-' :: ' ' :: encScalar (.num m e), encItems rd tl, by simp [encItems]⟩
  | .str s =>
      exact ⟨'-' :: ' ' :: encScalar (.str s), encItems rd tl, by simp [encItems]⟩
  | .obj kvs' =>
      exact ⟨['-'],
        (if kvs'.isEmpty then [(rd + 1, "{}".data)] else encEntries (rd + 1) kvs')
          ++ encItems rd tl, by simp [encItems]⟩
  | .arr xs =>
      cases htf : tabFields? xs with
      | some fs =>
          exact ⟨['-'],
            ((rd + 1, tabHeader [] xs.length fs) :: encRows (rd + 2) xs)
              ++ encItems rd tl, by simp [encItems, htf]⟩
      | none =>
          exact ⟨['-'],
            ((rd + 1, listHeader [] xs.length) :: encItems (rd + 2) xs)
              ++ encItems rd tl, by simp [encItems, htf]⟩

theorem itemCont_head (rd : Nat) (tl : List Value) (rest : List LineE)
    (hrest : ∀ l, rest.head? = some l → l.1 ≤ rd) :
    ∀ l, (encItems rd tl ++ rest).head? = some l → l.1 ≤ rd := by
  match tl with
  | [] =>
      intro l hl
      rw [show encItems rd ([] : List Value) = [] from by simp [encItems],
        List.nil_append] at hl
      exact hrest l hl
  | v :: tl₁ =>
      obtain ⟨c, L, hsh⟩ := item_line_head rd v tl₁
      intro l hl
      rw [hsh, List.cons_append, List.head?_cons] at hl
      injection hl with hl
      rw [← hl]

theorem pMain : ∀ N : Nat,
    (∀ kvs : List (String × Value), sizeOf kvs ≤ N →
      ∀ (d : Nat) (rest : List LineE) (f : Nat),
        (∀ l, rest.head? = some l → l.1 < d) →
        (encEntries d kvs ++ rest).length < f →
        pEntries f d (encEntries d kvs ++ rest) = .ok (kvs, rest)) ∧
    (∀ xs : List Value, sizeOf xs ≤ N →
      ∀ (rd : Nat) (rest : List LineE) (f : Nat),
        (∀ l, rest.head? = some l → l.1 ≤ rd) →
        (encItems rd xs ++ rest).length < f →
        pItems f rd xs.length (encItems rd xs ++ rest) = .ok (xs, rest)) := by
  intro N
  induction N using Nat.strong_induction_on with
  | _ N IH =>
  constructor
  · intro kvs hsz d rest f hrest hf
    match kvs with
    | [] =>
        rw [show encEntries d ([] : List (String × Value)) = [] from by simp [encEntries],
          List.nil_append] at hf ⊢
        exact pEntries_stop f d rest (by omega) hrest
    | (k, v) :: tl =>
        have h1 : sizeOf tl < N := lt_of_lt_of_le (sizeOf_tail_lt k v tl) hsz
        have htl : ∀ f', (encEntries d tl ++ rest).length < f' →
            pEntries f' d (encEntries d tl ++ rest) = .ok (tl, rest) :=
          fun f' hl => (IH (sizeOf tl) h1).1 tl (le_refl _) d rest f' hrest hl
        match v with
        | .null =>
            have hsh : encEntries d ((k, Value.null) :: tl) ++ rest
                = (d, keyChars k ++ ':' :: ' ' :: encScalar Value.null)
                  :: (encEntries d tl ++ rest) := by
              simp [encEntries]
            rw [hsh] at hf ⊢
            match f with
            | 0 => exact absurd hf (Nat.not_lt_zero _)
            | f' + 1 =>
                rw [List.length_cons] at hf
                exact pEntries_step_scalar (show isScalar (Value.null) = true from rfl)
                  d f' _ (tl, rest) (htl f' (by omega))
        | .bool b =>
            have hsh : encEntries d ((k, Value.bool b) :: tl) ++ rest
                = (d, keyChars k ++ ':' :: ' ' :: encScalar (Value.bool b))
                  :: (encEntries d tl ++ rest) := by
              simp [encEntries]
            rw [hsh] at hf ⊢
            match f with
            | 0 => exact absurd hf (Nat.not_lt_zero _)
            | f' + 1 =>
                rw [List.length_cons] at hf
                exact pEntries_step_scalar (show isScalar (Value.bool b) = true from rfl)
                  d f' _ (tl, rest) (htl f' (by omega))
        | .num m e =>
            have hsh : encEntries d ((k, Value.num m e) :: tl) ++ rest
                = (d, keyChars k ++ ':' :: ' ' :: encScalar (Value.num m e))
                  :: (encEntries d tl ++ rest) := by
              simp [encEntries]
            rw [hsh] at hf ⊢
            match f with
            | 0 => exact absurd hf (Nat.not_lt_zero _)
            | f' + 1 =>
                rw [List.length_cons] at hf
                exact pEntries_step_scalar (show isScalar (Value.num m e) = true from rfl)
                  d f' _ (tl, rest) (htl f' (by omega))
        | .str s =>
            have hsh : encEntries d ((k, Value.str s) :: tl) ++ rest
                = (d, keyChars k ++ ':' :: ' ' :: encScalar (Value.str s))
                  :: (encEntries d tl ++ rest) := by
              simp [encEntries]
            rw [hsh] at hf ⊢
            match f with
            | 0 => exact absurd hf (Nat.not_lt_zero _)
            | f' + 1 =>
                rw [List.length_cons] at hf
                exact pEntries_step_scalar (show isScalar (Value.str s) = true from rfl)
                  d f' _ (tl, rest) (htl f' (by omega))
        | .obj kvs' =>
            match kvs' with
            | [] =>
                have hsh : encEntries d ((k, Value.obj []) :: tl) ++ rest
                    = (d, keyChars k ++ [':']) :: (d + 1, "{}".data)
                      :: (encEntries d tl ++ rest) := by
                  simp [encEntries]
                rw [hsh] at hf ⊢
                match f with
                | 0 => exact absurd hf (Nat.not_lt_zero _)
                | f' + 1 =>
                    rw [List.length_cons, List.length_cons] at hf
                    exact pEntries_step_objE d f' _ (tl, rest) (htl f' (by omega))
            | (k₁, v₁) :: tl₁ =>
                have hsh : encEntries d ((k, Value.obj ((k₁, v₁) :: tl₁)) :: tl) ++ rest
                    = (d, keyChars k ++ [':'])
                      :: (encEntries (d + 1) ((k₁, v₁) :: tl₁)
                        ++ (encEntries d tl ++ rest)) := by
                  simp [encEntries]
                rw [hsh] at hf ⊢
                match f with
                | 0 => exact absurd hf (Nat.not_lt_zero _)
                | f' + 1 =>
                    have h2 : sizeOf ((k₁, v₁) :: tl₁) < N :=
                      lt_of_lt_of_le (sizeOf_objval_lt k _ tl) hsz
                    have hlen : (encEntries (d + 1) ((k₁, v₁) :: tl₁)
                        ++ (encEntries d tl ++ rest)).length < f' := by
                      rw [List.length_cons] at hf; omega
                    have hchild := (IH _ h2).1 ((k₁, v₁) :: tl₁) (le_refl _) (d + 1)
                      (encEntries d tl ++ rest) f'
                      (fun l hl => Nat.lt_succ_of_le (entCont_head d tl rest hrest l hl))
                      hlen
                    have hlen2 : (encEntries d tl ++ rest).length < f' := by
                      rw [List.length_append] at hlen; omega
                    exact pEntries_step_obj k₁ v₁ tl₁ rfl d f' _ (tl, rest)
                      hchild (htl f' hlen2)
        | .arr xs =>
            cases htf : tabFields? xs with
            | some fs =>
                obtain ⟨hfs, _, hshape⟩ := tabFields?_spec htf
                have hsh : encEntries d ((k, Value.arr xs) :: tl) ++ rest
                    = (d, tabHeader (keyChars k) xs.length fs)
                      :: (encRows (d + 1) xs ++ (encEntries d tl ++ rest)) := by
                  simp [encEntries, htf]
                rw [hsh] at hf ⊢
                match f with
                | 0 => exact absurd hf (Nat.not_lt_zero _)
                | f' + 1 =>
                    have hlen : (encRows (d + 1) xs
                        ++ (encEntries d tl ++ rest)).length < f' := by
                      rw [List.length_cons] at hf; omega
                    have hrows := pRows_enc xs (d + 1) fs (encEntries d tl ++ rest) f'
                      hfs hshape hlen
                    have hlen2 : (encEntries d tl ++ rest).length < f' := by
                      rw [List.length_append] at hlen; omega
                    exact pEntries_step_arrTab hfs d f' _ (tl, rest) hrows (htl f' hlen2)
            | none =>
                have hsh : encEntries d ((k, Value.arr xs) :: tl) ++ rest
                    = (d, listHeader (keyChars k) xs.length)
                      :: (encItems (d + 1) xs ++ (encEntries d tl ++ rest)) := by
                  simp [encEntries, htf]
                rw [hsh] at hf ⊢
                match f with
                | 0 => exact absurd hf (Nat.not_lt_zero _)
                | f' + 1 =>
                    have h2 : sizeOf xs < N :=
                      lt_of_lt_of_le (sizeOf_arrval_lt k xs tl) hsz
                    have hlen : (encItems (d + 1) xs
                        ++ (encEntries d tl ++ rest)).length < f' := by
                      rw [List.length_cons] at hf; omega
                    have hits := (IH _ h2).2 xs (le_refl _) (d + 1) (encEntries d tl ++ rest) f'
                      (fun l hl =>
                        le_trans (entCont_head d tl rest hrest l hl) (Nat.le_succ d))
                      hlen
                    have hlen2 : (encEntries d tl ++ rest).length < f' := by
                      rw [List.length_append] at hlen; omega
                    exact pEntries_step_arrList d f' _ (tl, rest) hits (htl f' hlen2)
  · intro xs hsz rd rest f hrest hf
    match xs with
    | [] =>
        rw [show encItems rd ([] : List Value) = [] from by simp [encItems],
          List.nil_append] at hf ⊢
        exact pItems_zero f rd rest (by omega)
    | v :: tl =>
        have h1 : sizeOf tl < N := lt_of_lt_of_le (sizeOf_itail_lt v tl) hsz
        have htl : ∀ f', (encItems rd tl ++ rest).length < f' →
            pItems f' rd tl.length (encItems rd tl ++ rest) = .ok (tl, rest) :=
          fun f' hl => (IH (sizeOf tl) h1).2 tl (le_refl _) rd rest f' hrest hl
        match v with
        | .null =>
            have hsh : encItems rd (Value.null :: tl) ++ rest
                = (rd, '-' :: ' ' :: encScalar Value.null)
                  :: (encItems rd tl ++ rest) := by
              simp [encItems]
            rw [hsh] at hf ⊢
            match f with
            | 0 => exact absurd hf (Nat.not_lt_zero _)
            | f' + 1 =>
                rw [List.length_cons] at hf
                exact pItems_step_scalar (show isScalar (Value.null) = true from rfl)
                  rd tl.length f' _ (tl, rest) (htl f' (by omega))
        | .bool b =>
            have hsh : encItems rd (Value.bool b :: tl) ++ rest
                = (rd, '-' :: ' ' :: encScalar (Value.bool b))
                  :: (encItems rd tl ++ rest) := by
              simp [encItems]
            rw [hsh] at hf ⊢
            match f with
            | 0 => exact absurd hf (Nat.not_lt_zero _)
            | f' + 1 =>
                rw [List.length_cons] at hf
                exact pItems_step_scalar (show isScalar (Value.bool b) = true from rfl)
                  rd tl.length f' _ (tl, rest) (htl f' (by omega))
        | .num m e =>
            have hsh : encItems rd (Value.num m e :: tl) ++ rest
                = (rd, '-' :: ' ' :: encScalar (Value.num m e))
                  :: (encItems rd tl ++ rest) := by
              simp [encItems]
            rw [hsh] at hf ⊢
            match f with
            | 0 => exact absurd hf (Nat.not_lt_zero _)
            | f' + 1 =>
                rw [List.length_cons] at hf
                exact pItems_step_scalar (show isScalar (Value.num m e) = true from rfl)
                  rd tl.length f' _ (tl, rest) (htl f' (by omega))
        | .str s =>
            have hsh : encItems rd (Value.str s :: tl) ++ rest
                = (rd, '-' :: ' ' :: encScalar (Value.str s))
                  :: (encItems rd tl ++ rest) := by
              simp [encItems]
            rw [hsh] at hf ⊢
            match f with
            | 0 => exact absurd hf (Nat.not_lt_zero _)
            | f' + 1 =>
                rw [List.length_cons] at hf
                exact pItems_step_scalar (show isScalar (Value.str s) = true from rfl)
                  rd tl.length f' _ (tl, rest) (htl f' (by omega))
        | .obj kvs' =>
            match kvs' with
            | [] =>
                have hsh : encItems rd (Value.obj [] :: tl) ++ rest
                    = (rd, ['-']) :: (rd + 1, "{}".data)
                      :: (encItems rd tl ++ rest) := by
                  simp [encItems]
                rw [hsh] at hf ⊢
                match f with
                | 0 => exact absurd hf (Nat.not_lt_zero _)
                | f' + 1 =>
                    rw [List.length_cons, List.length_cons] at hf
                    exact pItems_step_objE rd tl.length f' _ (tl, rest)
                      (htl f' (by omega))
            | (k₁, v₁) :: tl₁ =>
                have hsh : encItems rd (Value.obj ((k₁, v₁) :: tl₁) :: tl) ++ rest
                    = (rd, ['-'])
                      :: (encEntries (rd + 1) ((k₁, v₁) :: tl₁)
                        ++ (encItems rd tl ++ rest)) := by
                  simp [encItems]
                rw [hsh] at hf ⊢
                match f with
                | 0 => exact absurd hf (Nat.not_lt_zero _)
                | f' + 1 =>
                    have h2 : sizeOf ((k₁, v₁) :: tl₁) < N :=
                      lt_of_lt_of_le (sizeOf_iobj_lt _ tl) hsz
                    have hlen : (encEntries (rd + 1) ((k₁, v₁) :: tl₁)
                        ++ (encItems rd tl ++ rest)).length < f' := by
                      rw [List.length_cons] at hf; omega
                    have hchild := (IH _ h2).1 ((k₁, v₁) :: tl₁) (le_refl _) (rd + 1)
                      (encItems rd tl ++ rest) f'
                      (fun l hl => Nat.lt_succ_of_le (itemCont_head rd tl rest hrest l hl))
                      hlen
                    have hlen2 : (encItems rd tl ++ rest).length < f' := by
                      rw [List.length_append] at hlen; omega
                    exact pItems_step_obj k₁ v₁ tl₁ rfl rd tl.length f' _ (tl, rest)
                      hchild (htl f' hlen2)
        | .arr ys =>
            cases htf : tabFields? ys with
            | some fs =>
                obtain ⟨hfs, _, hshape⟩ := tabFields?_spec htf
                have hsh : encItems rd (Value.arr ys :: tl) ++ rest
                    = (rd, ['-']) :: (rd + 1, tabHeader [] ys.length fs)
                      :: (encRows (rd + 2) ys ++ (encItems rd tl ++ rest)) := by
                  simp [encItems, htf]
                rw [hsh] at hf ⊢
                match f with
                | 0 => exact absurd hf (Nat.not_lt_zero _)
                | f' + 1 =>
                    have hlen : (encRows (rd + 2) ys
                        ++ (encItems rd tl ++ rest)).length < f' := by
                      rw [List.length_cons, List.length_cons] at hf; omega
                    have hrows := pRows_enc ys (rd + 2) fs (encItems rd tl ++ rest) f'
                      hfs hshape hlen
                    have hlen2 : (encItems rd tl ++ rest).length < f' := by
                      rw [List.length_append] at hlen; omega
                    exact pItems_step_arrTab hfs rd tl.length f' _ (tl, rest)
                      hrows (htl f' hlen2)
            | none =>
                have hsh : encItems rd (Value.arr ys :: tl) ++ rest
                    = (rd, ['-']) :: (rd + 1, listHeader [] ys.length)
                      :: (encItems (rd + 2) ys ++ (encItems rd tl ++ rest)) := by
                  simp [encItems, htf]
                rw [hsh] at hf ⊢
                match f with
                | 0 => exact absurd hf (Nat.not_lt_zero _)
                | f' + 1 =>
                    have h2 : sizeOf ys < N :=
                      lt_of_lt_of_le (sizeOf_iarr_lt ys tl) hsz
                    have hlen : (encItems (rd + 2) ys
                        ++ (encItems rd tl ++ rest)).length < f' := by
                      rw [List.length_cons, List.length_cons] at hf; omega
                    have hits := (IH _ h2).2 ys (le_refl _) (rd + 2) (encItems rd tl ++ rest) f'
                      (fun l hl =>
                        le_trans (itemCont_head rd tl rest hrest l hl) (by omega))
                      hlen
                    have hlen2 : (encItems rd tl ++ rest).length < f' := by
                      rw [List.length_append] at hlen; omega
                    exact pItems_step_arrList rd tl.length f' _ (tl, rest)
                      hits (htl f' hlen2)

theorem scalarOfToken_quoteTok (s : List Char) :
    scalarOfToken (quoteTok s) = .ok (.str (String.mk s)) := by
  have hpq : parseQuoted ('"' :: (escChars s ++ ['"'])) = some (s, []) := by
    have h := parseQuoted_quoteTok s []
    rwa [List.append_nil] at h
  rw [show quoteTok s = '"' :: (escChars s ++ ['"']) from rfl]
  simp only [scalarOfToken]
  rw [if_pos trivial, hpq]
  rfl

theorem root_entry_line (k : String) (v : Value) (tl : List (String × Value)) :
    ∃ suffix L, encEntries 0 ((k, v) :: tl) = (0, keyChars k ++ suffix) :: L ∧
      ':' ∈ suffix := by
  match v with
  | .null =>
      exact ⟨':' :: ' ' :: encScalar .null, encEntries 0 tl,
        by simp [encEntries], List.mem_cons_self _ _⟩
  | .bool b =>
      exact ⟨':' :: ' ' :: encScalar (.bool b), encEntries 0 tl,
        by simp [encEntries], List.mem_cons_self _ _⟩
  | .num m e =>
      exact ⟨':' :: ' ' :: encScalar (.num m e), encEntries 0 tl,
        by simp [encEntries], List.mem_cons_self _ _⟩
  | .str s =>
      exact ⟨':' :: ' ' :: encScalar (.str s), encEntries 0 tl,
        by simp [encEntries], List.mem_cons_self _ _⟩
  | .obj kvs =>
      exact ⟨[':'],
        (if kvs.isEmpty then [(0 + 1, "{}".data)] else encEntries (0 + 1) kvs)
          ++ encEntries 0 tl,
        by simp [encEntries], List.mem_singleton.mpr rfl⟩
  | .arr xs =>
      cases htf : tabFields? xs with
      | some fs =>
          refine ⟨'[' :: (natChars xs.length
              ++ (']' :: ('{' :: (fieldsChars fs ++ ['}', ':'])))),
            encRows (0 + 1) xs ++ encEntries 0 tl,
            by simp [encEntries, htf, tabHeader_eq], by simp⟩
      | none =>
          refine ⟨'[' :: (natChars xs.length ++ [']', ':']),
            encItems (0 + 1) xs ++ encEntries 0 tl,
            by simp [encEntries, htf, listHeader_eq], by simp⟩

theorem pRoot_scalar (v : Value) (hv : isScalar v = true) (f : Nat) :
    pRoot f [(0, encScalar v)] = .ok v := by
  rcases goodTok_encScalar v hv with ⟨s, hs⟩ | ⟨hne, hbad, hhead⟩
  · have hv' : v = .str (String.mk s) := by
      have h1 := scalarOfToken_encScalar v hv
      rw [hs, scalarOfToken_quoteTok] at h1
      injection h1 with h1
      exact h1.symm
    rw [hs, hv', show quoteTok s = '"' :: (escChars s ++ ['"']) from rfl]
    have hpq : parseQuoted ('"' :: (escChars s ++ ['"'])) = some (s, []) := by
      have h := parseQuoted_quoteTok s []
      rwa [List.append_nil] at h
    simp only [pRoot]
    rw [if_pos trivial, hpq]
    rfl
  · cases he : encScalar v with
    | nil => exact absurd he hne
    | cons hc tlc =>
        have hh := hhead hc (by rw [he]; rfl)
        have hnocol : ¬((hc :: tlc).any (fun x => x = ':') = true) := by
          intro hx
          obtain ⟨x, hxm, hx'⟩ := List.any_eq_true.mp hx
          have hx2 : x = ':' := of_decide_eq_true hx'
          subst hx2
          have := hbad ':' (by rw [he]; exact hxm)
          exact absurd this (by decide)
        simp only [pRoot]
        rw [if_neg (by omega : ¬((0 : Nat) ≠ 0)), if_neg hh.2.2.2.1,
          if_neg (by
            intro h
            injection h with h1 _
            exact absurd h1 hh.2.2.2.2),
          if_neg hh.1, if_neg hnocol, if_pos trivial, ← he]
        exact scalarOfToken_encScalar v hv

theorem pRoot_enc (v : Value) (f : Nat) (hf : (encodeLines v).length < f) :
    pRoot f (encodeLines v) = .ok v := by
  match v with
  | .null =>
      rw [show encodeLines Value.null = [(0, encScalar Value.null)] from by simp [encodeLines]]
      exact pRoot_scalar Value.null rfl f
  | .bool b =>
      rw [show encodeLines (Value.bool b) = [(0, encScalar (Value.bool b))] from by
        simp [encodeLines]]
      exact pRoot_scalar (Value.bool b) rfl f
  | .num m e =>
      rw [show encodeLines (Value.num m e) = [(0, encScalar (Value.num m e))] from by
        simp [encodeLines]]
      exact pRoot_scalar (Value.num m e) rfl f
  | .str s =>
      rw [show encodeLines (Value.str s) = [(0, encScalar (Value.str s))] from by
        simp [encodeLines]]
      exact pRoot_scalar (Value.str s) rfl f
  | .obj [] =>
      rw [show encodeLines (Value.obj []) = [(0, "{}".data)] from by simp [encodeLines]]
      rfl
  | .obj ((k₁, v₁) :: tl₁) =>
      have henc : encodeLines (Value.obj ((k₁, v₁) :: tl₁))
          = encEntries 0 ((k₁, v₁) :: tl₁) := by simp [encodeLines]
      rw [henc] at hf ⊢
      obtain ⟨c, L, hsh, hcol, hhc, hnb⟩ := entry_line_shape k₁ v₁ tl₁ 0
      obtain ⟨suffix, L', hsh', hscol⟩ := root_entry_line k₁ v₁ tl₁
      have hcL : c = keyChars k₁ ++ suffix := by
        have h := hsh.symm.trans hsh'
        simp only [List.cons.injEq, Prod.mk.injEq] at h
        exact h.1.2
      have hent : pEntries f 0 (encEntries 0 ((k₁, v₁) :: tl₁))
          = .ok ((k₁, v₁) :: tl₁, []) := by
        have h0 := (pMain (sizeOf ((k₁, v₁) :: tl₁))).1 ((k₁, v₁) :: tl₁) (le_refl _) 0
          ([] : List LineE) f (by intro l hl; exact absurd hl (by simp))
          (by rw [List.append_nil]; exact hf)
        rwa [List.append_nil] at h0
      rw [hsh] at hent ⊢
      cases hcc : c with
      | nil =>
          subst hcc
          exact absurd hcol (by simp)
      | cons hc ct =>
          subst hcc
          have hh1 : hc ≠ '[' := hhc hc rfl
          simp only [pRoot]
          rw [if_neg (by omega : ¬((0 : Nat) ≠ 0)), if_neg hh1,
            if_neg (show ¬(hc :: ct = ['{', '}']) from fun h => hnb (by rw [h]))]
          by_cases hq : hc = '"'
          · rw [if_pos hq]
            by_cases hkq : keyNeedsQuote k₁.data
            · have hkey : keyChars k₁ = quoteTok k₁.data := by simp [keyChars, hkq]
              have hpq : parseQuoted (hc :: ct) = some (k₁.data, suffix) := by
                rw [hcL, hkey]
                exact parseQuoted_quoteTok _ _
              rw [hpq]
              have hsne : suffix ≠ [] := by
                intro h
                rw [h] at hscol
                exact absurd hscol (by simp)
              show (if suffix = [] then
                  (if L = [] then Except.ok (Value.str (String.mk k₁.data))
                   else Except.error DErr.malformed)
                else do
                  let p ← pEntries f 0 ((0, hc :: ct) :: L)
                  if p.2 = [] then Except.ok (Value.obj p.1)
                  else Except.error DErr.malformed)
                = Except.ok (Value.obj ((k₁, v₁) :: tl₁))
              rw [if_neg hsne, hent, ebind_ok]
              rfl
            · exfalso
              cases hkd : k₁.data with
              | nil =>
                  rw [hkd] at hkq
                  exact hkq rfl
              | cons ch ctl =>
                  have hkf : keyNeedsQuote (ch :: ctl) = false := by
                    rw [← hkd]
                    exact Bool.eq_false_iff.mpr hkq
                  have hch : ch ≠ '"' := by
                    intro hq2
                    have h1 := (keyNeedsQuote_false_facts hkf).1
                    rw [hq2] at h1
                    exact absurd h1 (by decide)
                  have hkc : keyChars k₁ = ch :: ctl := by
                    rw [show keyChars k₁ = k₁.data from by simp [keyChars, hkq], hkd]
                  have : hc = ch := by
                    have h2 : hc :: ct = ch :: (ctl ++ suffix) := by
                      rw [hcL, hkc]
                      rfl
                    injection h2 with h2 _
                  exact hch (hq ▸ this ▸ rfl)
          · rw [if_neg hq,
              if_pos (List.any_eq_true.mpr ⟨':', hcol, by simp⟩),
              hent, ebind_ok]
            rfl
  | .arr xs =>
      cases htf : tabFields? xs with
      | some fs =>
          obtain ⟨hfs, _, hshape⟩ := tabFields?_spec htf
          have henc : encodeLines (Value.arr xs)
              = (0, tabHeader [] xs.length fs) :: encRows 0 xs := by
            simp [encodeLines, htf]
          rw [henc] at hf ⊢
          have hth : tabHeader [] xs.length fs
              = '[' :: (natChars xs.length
                ++ (']' :: ('{' :: (fieldsChars fs ++ ['}', ':'])))) := by
            rw [tabHeader_eq]; rfl
          rw [hth]
          have hrows : pRows f 0 fs xs.length (encRows 0 xs) = .ok (xs, []) := by
            have h0 := pRows_enc xs 0 fs [] f hfs hshape
              (by rw [List.append_nil]; rw [List.length_cons] at hf; omega)
            rwa [List.append_nil] at h0
          simp only [pRoot]
          rw [if_neg (by omega : ¬((0 : Nat) ≠ 0)), if_pos trivial,
            parseHeader_tab xs.length fs hfs, ebind_ok]
          show (do
            let rows ← pRows f 0 fs xs.length (encRows 0 xs)
            if rows.2 = [] then Except.ok (Value.arr rows.1) else Except.error DErr.malformed)
            = Except.ok (Value.arr xs)
          rw [hrows, ebind_ok]
          rfl
      | none =>
          have henc : encodeLines (Value.arr xs)
              = (0, listHeader [] xs.length) :: encItems 0 xs := by
            simp [encodeLines, htf]
          rw [henc] at hf ⊢
          have hlh : listHeader [] xs.length
              = '[' :: (natChars xs.length ++ [']', ':']) := by
            rw [listHeader_eq]; rfl
          rw [hlh]
          have hits : pItems f 0 xs.length (encItems 0 xs) = .ok (xs, []) := by
            have h0 := (pMain (sizeOf xs)).2 xs (le_refl _) 0 ([] : List LineE) f
              (by intro l hl; exact absurd hl (by simp))
              (by rw [List.append_nil]; rw [List.length_cons] at hf; omega)
            rwa [List.append_nil] at h0
          simp only [pRoot]
          rw [if_neg (by omega : ¬((0 : Nat) ≠ 0)), if_pos trivial,
            parseHeader_list xs.length, ebind_ok]
          show (do
            let its ← pItems f 0 xs.length (encItems 0 xs)
            if its.2 = [] then Except.ok (Value.arr its.1) else Except.error DErr.malformed)
            = Except.ok (Value.arr xs)
          rw [hits, ebind_ok]
          rfl

theorem encodeLines_ne_nil (v : Value) : encodeLines v ≠ [] := by
  match v with
  | .null => simp [encodeLines]
  | .bool b => simp [encodeLines]
  | .num m e => simp [encodeLines]
  | .str s => simp [encodeLines]
  | .obj [] => simp [encodeLines]
  | .obj ((k₁, v₁) :: tl₁) =>
      obtain ⟨c, L, hsh, _, _, _⟩ := entry_line_shape k₁ v₁ tl₁ 0
      rw [show encodeLines (Value.obj ((k₁, v₁) :: tl₁))
        = encEntries 0 ((k₁, v₁) :: tl₁) from by simp [encodeLines], hsh]
      simp
  | .arr xs =>
      cases htf : tabFields? xs with
      | some fs =>
          rw [show encodeLines (Value.arr xs)
            = (0, tabHeader [] xs.length fs) :: encRows 0 xs from by
              simp [encodeLines, htf]]
          simp
      | none =>
          rw [show encodeLines (Value.arr xs)
            = (0, listHeader [] xs.length) :: encItems 0 xs from by
              simp [encodeLines, htf]]
          simp

theorem decode_encode (v : Value) : decodeFromToon (encodeToToon v) = .ok v := by
  have hml : mkLines (linesOf (joinNl ((encodeLines v).map renderLine)))
      = .ok (encodeLines v) :=
    decode_lines_encode (encodeLines v) (encodeLines_ne_nil v) (goodL_encodeLines v)
  have hdata : (encodeToToon v).data = joinNl ((encodeLines v).map renderLine) := rfl
  simp only [decodeFromToon]
  rw [hdata, hml, ebind_ok]
  exact pRoot_enc v _ (Nat.lt_succ_self _)

/-! ## Codec call sequences (statelessness, spec §3 and §5) -/

/-- Modelled from the spec: a single invocation of one of the codec's two
entry points (§6); the codec holds no persistent state across calls
(§3, §5), so a call is fully described by its input. -/
inductive CodecCall where
  | enc (v : Value)
  | dec (t : String)

/-- Modelled from the spec: the result of one codec call — the codec is a
stateless pure function of the call's own input (§3, §5). -/
def runCall : CodecCall → Except DErr Value ⊕ String
  | .enc v => .inr (encodeToToon v)
  | .dec t => .inl (decodeFromToon t)

/-- Modelled from the spec: the results of a sequence of codec calls. -/
def runCalls (cs : List CodecCall) : List (Except DErr Value ⊕ String) :=
  cs.map runCall

/-! ## Gateway model (`src/app.js`, `src/cache.js`) -/

/-- A request as seen by the gateway: `req.method`, `req.originalUrl` and
`req.path` are the only request fields `src/app.js` and `src/cache.js`
consult. -/
structure GReq where
  method : String
  originalUrl : String
  path : String

/-- `generateKey` of `src/cache.js` line 46:
`(req) => "toon_cache:" + req.method + ":" + req.originalUrl` (template
literal). -/
def generateKey (req : GReq) : String :=
  "toon_cache:" ++ req.method ++ ":" ++ req.originalUrl

/-- The Redis store, modelled as an association list; `redis.set` prepends
and `redis.get` takes the most recent binding. -/
abbrev Store := List (String × String)

/-- `redis.get key`: the most recently set value under the key, if any. -/
def redisGet (store : Store) (k : String) : Option String :=
  match store.find? (fun kv => kv.1 = k) with
  | some kv => some kv.2
  | none => none

/-- `redis.set key value` (the TTL argument is not modelled). -/
def redisSet (store : Store) (k v : String) : Store := (k, v) :: store

/-- JavaScript `haystack.includes(needle)` on strings. -/
def containsSubstr (hay needle : String) : Bool :=
  decide (List.IsInfix needle.data hay.data)

/-- Outcome of the response interceptor of `src/app.js` lines 114–149:
the body returned to the client, the Content-Type header it set (if any)
and the Redis write it performed (if any). -/
structure ProxyResult where
  body : String
  contentTypeSet : Option String
  cacheWrite : Option (String × String)

/-- `proxyOptions.onProxyRes` of `src/app.js` lines 114–149.  `jp` models
`JSON.parse` (`none` = the parse threw, caught at line 143); the encode
step is the total `encodeToToon` of this development.  When the upstream
content-type header is absent or does not contain `application/json`, or
the parse throws, the original `responseBuffer` is returned unchanged;
otherwise the TOON body is returned, Content-Type is set, and the body is
cached under `generateKey req` when the request was a GET whose response
status is 200 while Redis is connected (lines 129–136). -/
def onProxyRes (jp : String → Option Value) (conn : Bool) (req : GReq)
    (status : Nat) (contentType : Option String)
    (responseBuffer : String) : ProxyResult :=
  match contentType with
  | some ct =>
      if containsSubstr ct "application/json" then
        match jp responseBuffer with
        | some jsonBody =>
            let toonBody := encodeToToon jsonBody
            { body := toonBody
              contentTypeSet := some "text/toon; charset=utf-8"
              cacheWrite :=
                if req.method = "GET" ∧ status = 200 ∧ conn = true then
                  some (generateKey req, toonBody)
                else none }
        | none =>
            { body := responseBuffer, contentTypeSet := none, cacheWrite := none }
      else { body := responseBuffer, contentTypeSet := none, cacheWrite := none }
  | none => { body := responseBuffer, contentTypeSet := none, cacheWrite := none }

/-- Outcome of the cache middleware of `src/app.js` lines 78–107: the
cached body it served (if any), the `X-Cache` header it set (if any) and
the Content-Type header it set (if any). -/
structure MWResult where
  served : Option String
  xcache : Option String
  contentTypeSet : Option String

/-- `cacheMiddleware` of `src/app.js` lines 78–107: non-GET requests and
`/health` fall through untouched; with Redis disconnected the X-Cache
header is set to UNAVAILABLE and the request falls through; otherwise the
key is looked up and a truthy (non-null, non-empty) cached value is served
with X-Cache HIT and the TOON content type, a missing one falls through
with X-Cache MISS. -/
def cacheMiddleware (conn : Bool) (store : Store) (req : GReq) : MWResult :=
  if req.method ≠ "GET" then ⟨none, none, none⟩
  else if req.path = "/health" then ⟨none, none, none⟩
  else if conn = false then ⟨none, some "UNAVAILABLE", none⟩
  else
    match redisGet store (generateKey req) with
    | some c =>
        if c = "" then ⟨none, some "MISS", none⟩
        else ⟨some c, some "HIT", some "text/toon; charset=utf-8"⟩
    | none => ⟨none, some "MISS", none⟩

/-- One request/response cycle through the gateway (`src/app.js` line
159: the cache middleware runs first and, on a hit, responds without
invoking the proxy; otherwise the proxied response passes through the
interceptor, whose cache write updates the store). -/
structure GEvent where
  conn : Bool
  req : GReq
  status : Nat
  contentType : Option String
  buf : String

/-- Handle one request: the body sent to the client and the store after
the request. -/
def gatewayStep (jp : String → Option Value) (e : GEvent) (store : Store) :
    String × Store :=
  match (cacheMiddleware e.conn store e.req).served with
  | some body => (body, store)
  | none =>
      let pr := onProxyRes jp e.conn e.req e.status e.contentType e.buf
      match pr.cacheWrite with
      | some kv => (pr.body, redisSet store kv.1 kv.2)
      | none => (pr.body, store)

/-- The store after a list of requests, most recent first, starting from
an empty cache. -/
def runTrace (jp : String → Option Value) : List GEvent → Store
  | [] => []
  | e :: es => (gatewayStep jp e (runTrace jp es)).2

theorem redisGet_mem {store : Store} {k v : String}
    (h : redisGet store k = some v) : (k, v) ∈ store := by
  unfold redisGet at h
  cases hf : store.find? (fun kv => kv.1 = k) with
  | none => rw [hf] at h; exact Option.noConfusion h
  | some kv =>
      rw [hf] at h
      injection h with h
      have hmem := List.mem_of_find?_eq_some hf
      have hk : kv.1 = k := by simpa using List.find?_some hf
      have hkv : kv = (k, v) := by
        cases kv
        simp only [Prod.mk.injEq]
        exact ⟨hk, h⟩
      rwa [hkv] at hmem

theorem cacheWrite_spec (jp : String → Option Value) (conn : Bool) (req : GReq)
    (status : Nat) (ct : Option String) (buf : String) (k v : String)
    (h : (onProxyRes jp conn req status ct buf).cacheWrite = some (k, v)) :
    k = generateKey req ∧ req.method = "GET" ∧ status = 200 ∧ conn = true ∧
      v = (onProxyRes jp conn req status ct buf).body ∧
      ∃ j, jp buf = some j ∧ v = encodeToToon j := by
  match ct with
  | none => exact absurd h (by simp [onProxyRes])
  | some c =>
      by_cases hct : containsSubstr c "application/json" = true
      · cases hj : jp buf with
        | none => exact absurd h (by simp [onProxyRes, hct, hj])
        | some j =>
            have hbody : (onProxyRes jp conn req status (some c) buf).body
                = encodeToToon j := by
              simp [onProxyRes, hct, hj]
            simp only [onProxyRes, hct, if_true, hj] at h
            by_cases hcond : req.method = "GET" ∧ status = 200 ∧ conn = true
            · rw [if_pos hcond] at h
              injection h with h
              have h1 : generateKey req = k := congrArg Prod.fst h
              have h2 : encodeToToon j = v := congrArg Prod.snd h
              exact ⟨h1.symm, hcond.1, hcond.2.1, hcond.2.2,
                by rw [hbody]; exact h2.symm, j, rfl, h2.symm⟩
            · rw [if_neg hcond] at h
              exact Option.noConfusion h
      · exact absurd h (by simp [onProxyRes, hct])

theorem storeInv (jp : String → Option Value) (events : List GEvent) (k v : String)
    (h : (k, v) ∈ runTrace jp events) :
    ∃ e ∈ events, e.conn = true ∧ e.req.method = "GET" ∧ e.status = 200 ∧
      k = generateKey e.req ∧
      v = (onProxyRes jp e.conn e.req e.status e.contentType e.buf).body ∧
      ∃ j, jp e.buf = some j ∧ v = encodeToToon j := by
  induction events with
  | nil => exact absurd h (by simp [runTrace])
  | cons e es ih =>
      simp only [runTrace, gatewayStep] at h
      cases hmw : (cacheMiddleware e.conn (runTrace jp es) e.req).served with
      | some b =>
          rw [hmw] at h
          obtain ⟨e', he', rest⟩ := ih h
          exact ⟨e', List.mem_cons_of_mem _ he', rest⟩
      | none =>
          rw [hmw] at h
          cases hw : (onProxyRes jp e.conn e.req e.status e.contentType e.buf).cacheWrite with
          | none =>
              rw [hw] at h
              obtain ⟨e', he', rest⟩ := ih h
              exact ⟨e', List.mem_cons_of_mem _ he', rest⟩
          | some kv =>
              rw [hw] at h
              rcases List.mem_cons.mp h with h | h
              · have hkv : (onProxyRes jp e.conn e.req e.status e.contentType
                    e.buf).cacheWrite = some (k, v) := by
                  rw [hw, show kv = (k, v) from by
                    cases kv
                    simp only [Prod.mk.injEq] at h ⊢
                    exact ⟨h.1.symm, h.2.symm⟩]
                obtain ⟨s1, s2, s3, s4, s5, s6⟩ :=
                  cacheWrite_spec jp e.conn e.req e.status e.contentType e.buf k v hkv
                exact ⟨e, List.mem_cons_self _ _, s4, s2, s3, s1, s5, s6⟩
              · obtain ⟨e', he', rest⟩ := ih h
                exact ⟨e', List.mem_cons_of_mem _ he', rest⟩

theorem generateKey_inj_url (r₀ r : GReq) (h0 : r₀.method = "GET")
    (h1 : r.method = "GET") (h : generateKey r₀ = generateKey r) :
    r₀.originalUrl = r.originalUrl := by
  unfold generateKey at h
  rw [h0, h1] at h
  have hd := congrArg String.data h
  simp only [String.data_append, List.append_assoc] at hd
  have hd1 := List.append_cancel_left hd
  have hd2 := List.append_cancel_left hd1
  have hd3 := List.append_cancel_left hd2
  exact congrArg String.mk hd3

theorem served_spec (conn : Bool) (store : Store) (req : GReq) (b : String)
    (h : (cacheMiddleware conn store req).served = some b) :
    req.method = "GET" ∧ conn = true ∧
      redisGet store (generateKey req) = some b := by
  unfold cacheMiddleware at h
  by_cases h1 : req.method ≠ "GET"
  · rw [if_pos h1] at h
    exact Option.noConfusion h
  · rw [if_neg h1] at h
    push_neg at h1
    by_cases h2 : req.path = "/health"
    · rw [if_pos h2] at h
      exact Option.noConfusion h
    · rw [if_neg h2] at h
      by_cases h3 : conn = false
      · rw [if_pos h3] at h
        exact Option.noConfusion h
      · rw [if_neg h3] at h
        have hconn : conn = true := by
          cases conn
          · exact absurd rfl h3
          · rfl
        cases hg : redisGet store (generateKey req) with
        | none =>
            rw [hg] at h
            exact Option.noConfusion h
        | some c =>
            rw [hg] at h
            have h' : (if c = "" then (⟨none, some "MISS", none⟩ : MWResult)
              else ⟨some c, some "HIT",
                some "text/toon; charset=utf-8"⟩).served = some b := h
            by_cases hce : c = ""
            · rw [if_pos hce] at h'
              exact Option.noConfusion h'
            · rw [if_neg hce] at h'
              injection h' with h'
              exact ⟨h1, hconn, by rw [h']⟩

/-! ## The claims -/

/-- C1: for every acyclic Value v (every `Value` is a finite tree, hence
acyclic), decoding the result of encoding v with default options yields a
value equal to v: `decodeFromToon (encodeToToon v) = .ok v`. -/
theorem c1_roundtrip (v : Value) : decodeFromToon (encodeToToon v) = .ok v :=
  decode_encode v

/-- C2: encoding the array of the two objects with keys `id`, `name` and
values 1/Alice and 2/Bob with default options produces exactly the three
lines `[2]{id,name}:`, `1,Alice`, `2,Bob`. -/
theorem c2_tabular_exact :
    encodeToToon (Value.arr
      [Value.obj [("id", Value.num 1 0), ("name", Value.str "Alice")],
       Value.obj [("id", Value.num 2 0), ("name", Value.str "Bob")]])
      = "[2]{id,name}:\n1,Alice\n2,Bob" := rfl

/-- C3: decoding a block whose header declares `[3]{a}:` followed by only
two data rows fails with the length-mismatch error (strict mode is the
modelled default). -/
theorem c3_length_mismatch :
    decodeFromToon "[3]{a}:\n1\n2" = .error .lengthMismatch := rfl

/-- C4: encoding the string value `true` emits it in quoted form; decoding
the quoted token yields the string back, while decoding the bare token
`true` yields the boolean true. -/
theorem c4_literal_disambiguation :
    encodeToToon (Value.str "true") = "\"true\"" ∧
    decodeFromToon "\"true\"" = .ok (Value.str "true") ∧
    decodeFromToon "true" = .ok (Value.bool true) :=
  ⟨rfl, rfl, rfl⟩

/-- C5: for every input text, decoding either returns a fully decoded
value or a typed error of the taxonomy (`DErr`); the `Except` result type
makes a partial result impossible. -/
theorem c5_decode_total (t : String) :
    (∃ v, decodeFromToon t = .ok v) ∨ (∃ e, decodeFromToon t = .error e) := by
  cases h : decodeFromToon t with
  | ok v => exact Or.inl ⟨v, rfl⟩
  | error e => exact Or.inr ⟨e, rfl⟩

/-- C6: when the upstream content-type contains `application/json` and the
JSON parse of the body succeeds, the interceptor forwards exactly the TOON
encoding of the parsed value as the body and sets Content-Type to
`text/toon; charset=utf-8`. -/
theorem c6_interceptor_forwards (jp : String → Option Value) (conn : Bool)
    (req : GReq) (status : Nat) (ct : String) (buf : String) (j : Value)
    (hct : containsSubstr ct "application/json" = true)
    (hj : jp buf = some j) :
    (onProxyRes jp conn req status (some ct) buf).body = encodeToToon j ∧
    (onProxyRes jp conn req status (some ct) buf).contentTypeSet
      = some "text/toon; charset=utf-8" := by
  constructor <;> simp [onProxyRes, hct, hj]

theorem c6_witness :
    containsSubstr "application/json" "application/json" = true ∧
    ((fun _ => some (Value.num 1 0)) "1" = some (Value.num 1 0)) ∧
    (onProxyRes (fun _ => some (Value.num 1 0)) true ⟨"GET", "/a", "/a"⟩ 200
      (some "application/json") "1").body = encodeToToon (Value.num 1 0) :=
  ⟨rfl, rfl,
    (c6_interceptor_forwards (fun _ => some (Value.num 1 0)) true
      ⟨"GET", "/a", "/a"⟩ 200 "application/json" "1" (Value.num 1 0)
      rfl rfl).1⟩

/-- C7: the two codec entry points are stateless pure functions — in any
sequence of calls, every call's result is the fixed function `runCall` of
that call's own input, unchanged by the calls before or after it. -/
theorem c7_stateless (pre post : List CodecCall) (c : CodecCall) :
    runCalls (pre ++ c :: post) = runCalls pre ++ runCall c :: runCalls post := by
  simp [runCalls]

/-- C8: when the upstream content-type is absent or does not contain
`application/json`, or the JSON parse of the body throws (the modelled
encode step is total, so the JS catch can only be reached by the parse),
the interceptor returns the original upstream buffer unchanged and sets
no header and writes no cache entry. -/
theorem c8_fallback (jp : String → Option Value) (conn : Bool) (req : GReq)
    (status : Nat) (buf : String) :
    ((onProxyRes jp conn req status none buf).body = buf ∧
      (onProxyRes jp conn req status none buf).contentTypeSet = none ∧
      (onProxyRes jp conn req status none buf).cacheWrite = none) ∧
    (∀ ct, containsSubstr ct "application/json" = false →
      (onProxyRes jp conn req status (some ct) buf).body = buf ∧
      (onProxyRes jp conn req status (some ct) buf).contentTypeSet = none ∧
      (onProxyRes jp conn req status (some ct) buf).cacheWrite = none) ∧
    (∀ ct, jp buf = none →
      (onProxyRes jp conn req status (some ct) buf).body = buf ∧
      (onProxyRes jp conn req status (some ct) buf).contentTypeSet = none ∧
      (onProxyRes jp conn req status (some ct) buf).cacheWrite = none) := by
  refine ⟨⟨rfl, rfl, rfl⟩, ?_, ?_⟩
  · intro ct hct
    refine ⟨?_, ?_, ?_⟩ <;> simp [onProxyRes, hct]
  · intro ct hj
    by_cases hct : containsSubstr ct "application/json" = true
    · refine ⟨?_, ?_, ?_⟩ <;> simp [onProxyRes, hct, hj]
    · refine ⟨?_, ?_, ?_⟩ <;> simp [onProxyRes, hct]

theorem c8_witness :
    containsSubstr "text/html" "application/json" = false ∧
    (onProxyRes (fun _ => some (Value.num 1 0)) true ⟨"GET", "/a", "/a"⟩ 200
      (some "text/html") "abc").body = "abc" :=
  ⟨rfl,
    ((c8_fallback (fun _ => some (Value.num 1 0)) true ⟨"GET", "/a", "/a"⟩
      200 "abc").2.1 "text/html" rfl).1⟩

/-- C9: every new entry a request adds to the Redis store is keyed by
`generateKey` of the request and holds exactly the body the gateway
returns for that response, and is added only for a connected GET with
status 200; consequently a cache hit after any trace of requests serves a
body that some earlier GET request with the same method and URL returned
as its freshly encoded TOON text. -/
theorem c9_cache_exact (jp : String → Option Value) :
    (∀ (e : GEvent) (store : Store) (kv : String × String),
      kv ∈ (gatewayStep jp e store).2 → kv ∈ store ∨
        (kv.1 = generateKey e.req ∧ e.req.method = "GET" ∧ e.status = 200 ∧
          e.conn = true ∧ kv.2 = (gatewayStep jp e store).1 ∧
          ∃ j, jp e.buf = some j ∧ kv.2 = encodeToToon j)) ∧
    (∀ (events : List GEvent) (req : GReq) (b : String),
      (cacheMiddleware true (runTrace jp events) req).served = some b →
      ∃ e ∈ events, e.req.method = req.method ∧
        e.req.originalUrl = req.originalUrl ∧ e.conn = true ∧ e.status = 200 ∧
        b = (onProxyRes jp e.conn e.req e.status e.contentType e.buf).body ∧
        ∃ j, jp e.buf = some j ∧ b = encodeToToon j) := by
  constructor
  · intro e store kv hmem
    rcases hmw : (cacheMiddleware e.conn store e.req).served with _ | b
    · rcases hw : (onProxyRes jp e.conn e.req e.status e.contentType e.buf).cacheWrite
        with _ | ⟨kw, vw⟩
      · left
        have hstep : (gatewayStep jp e store).2 = store := by
          simp only [gatewayStep]
          rw [hmw, hw]
        rwa [hstep] at hmem
      · have hstep : gatewayStep jp e store
            = ((onProxyRes jp e.conn e.req e.status e.contentType e.buf).body,
               redisSet store kw vw) := by
          simp only [gatewayStep]
          rw [hmw, hw]
        rw [hstep] at hmem
        simp only [redisSet] at hmem
        rcases List.mem_cons.mp hmem with h | h
        · right
          have hkv : (onProxyRes jp e.conn e.req e.status e.contentType
              e.buf).cacheWrite = some (kv.1, kv.2) := by
            rw [hw, h]
          obtain ⟨s1, s2, s3, s4, s5, s6⟩ :=
            cacheWrite_spec jp e.conn e.req e.status e.contentType e.buf kv.1 kv.2 hkv
          exact ⟨s1, s2, s3, s4, by rw [hstep]; exact s5, s6⟩
        · exact Or.inl h
    · left
      have hstep : (gatewayStep jp e store).2 = store := by
        simp only [gatewayStep]
        rw [hmw]
      rwa [hstep] at hmem
  · intro events req b h
    obtain ⟨hmeth, _, hget⟩ := served_spec true _ req b h
    have hmem := redisGet_mem hget
    obtain ⟨e, he, hconn, hm, hst, hkey, hbody, j, hj, hv⟩ :=
      storeInv jp events _ _ hmem
    refine ⟨e, he, hm.trans hmeth.symm, ?_, hconn, hst, hbody, j, hj, hv⟩
    exact (generateKey_inj_url req e.req hmeth hm hkey).symm

theorem c9_witness :
    (cacheMiddleware true
      (runTrace (fun _ => some (Value.num 1 0))
        [⟨true, ⟨"GET", "/a", "/a"⟩, 200, some "application/json", "1"⟩])
      ⟨"GET", "/a", "/a"⟩).served = some "1" ∧
    (∃ e ∈ [(⟨true, ⟨"GET", "/a", "/a"⟩, 200, some "application/json", "1"⟩ : GEvent)],
      e.req.method = (⟨"GET", "/a", "/a"⟩ : GReq).method ∧
      e.req.originalUrl = (⟨"GET", "/a", "/a"⟩ : GReq).originalUrl ∧
      e.conn = true ∧ e.status = 200 ∧
      "1" = (onProxyRes (fun _ => some (Value.num 1 0)) e.conn e.req e.status
        e.contentType e.buf).body ∧
      ∃ j, (fun (_ : String) => some (Value.num 1 0)) e.buf = some j ∧
        "1" = encodeToToon j) :=
  ⟨rfl,
    (c9_cache_exact (fun _ => some (Value.num 1 0))).2
      [⟨true, ⟨"GET", "/a", "/a"⟩, 200, some "application/json", "1"⟩]
      ⟨"GET", "/a", "/a"⟩ "1" rfl⟩

/-- C10: the cache middleware never serves a cached body for a non-GET
request, for the `/health` path, or while Redis is disconnected — in each
case it falls through to the proxy — and when the disconnected branch is
reached (a GET for another path) it sets X-Cache to UNAVAILABLE. -/
theorem c10_no_cache_serve (conn : Bool) (store : Store) (req : GReq) :
    (req.method ≠ "GET" → (cacheMiddleware conn store req).served = none) ∧
    (req.path = "/health" → (cacheMiddleware conn store req).served = none) ∧
    (conn = false → (cacheMiddleware conn store req).served = none) ∧
    (req.method = "GET" → req.path ≠ "/health" → conn = false →
      (cacheMiddleware conn store req).xcache = some "UNAVAILABLE") := by
  refine ⟨?_, ?_, ?_, ?_⟩
  · intro h
    unfold cacheMiddleware
    rw [if_pos h]
  · intro h
    unfold cacheMiddleware
    by_cases h1 : req.method ≠ "GET"
    · rw [if_pos h1]
    · rw [if_neg h1, if_pos h]
  · intro h
    unfold cacheMiddleware
    by_cases h1 : req.method ≠ "GET"
    · rw [if_pos h1]
    · rw [if_neg h1]
      by_cases h2 : req.path = "/health"
      · rw [if_pos h2]
      · rw [if_neg h2, if_pos h]
  · intro h1 h2 h3
    unfold cacheMiddleware
    rw [if_neg (show ¬(req.method ≠ "GET") from fun hne => hne h1),
      if_neg h2, if_pos h3]

theorem c10_witness :
    (("POST" : String) ≠ "GET") ∧
    (cacheMiddleware false [] ⟨"POST", "/u", "/u"⟩).served = none ∧
    (cacheMiddleware false [] ⟨"GET", "/u", "/u"⟩).xcache = some "UNAVAILABLE" :=
  ⟨by decide,
    (c10_no_cache_serve false [] ⟨"POST", "/u", "/u"⟩).1 (by decide),
    (c10_no_cache_serve false [] ⟨"GET", "/u", "/u"⟩).2.2.2 rfl (by decide) rfl⟩
